import Mathlib

/-!
Verification development for the A-Puzzle-A-Day calendar puzzle solver
(`puzzle_solver.py`).  The Python program is shallowly embedded: the 7x7
numpy board becomes a row-major `List Int` of length 49 (numpy's negative
index wraparound is modelled by `Int.emod`), Python sets of cells become
lists of cells, the mutating backtracking search becomes an explicit
state-passing function with a fuel parameter, and the fallible date
lookups of `solve_puzzle` are mirrored by an `Except`-valued variant.
-/

namespace PuzzleSolver

abbrev Cell := Int × Int

abbrev Shape := List Cell

abbrev Board := List Int

def BOARD_ROWS : Nat := 7

def BOARD_COLS : Nat := 7

/-- Blocked positions (row, col), not part of the playable board. -/
def BLOCKED : List Cell := [(0, 6), (1, 6), (6, 3), (6, 4), (6, 5), (6, 6)]

def MONTH_NAMES : List String :=
  ["Jan", "Feb", "Mär", "Apr", "Mai", "Jun", "Jul", "Aug", "Sep", "Okt", "Nov", "Dez"]

/-- Month positions (row, col) -> month name. -/
def MONTHS : List (Cell × String) :=
  [((0, 0), "Jan"), ((0, 1), "Feb"), ((0, 2), "Mär"), ((0, 3), "Apr"),
   ((0, 4), "Mai"), ((0, 5), "Jun"), ((1, 0), "Jul"), ((1, 1), "Aug"),
   ((1, 2), "Sep"), ((1, 3), "Okt"), ((1, 4), "Nov"), ((1, 5), "Dez")]

def MONTH_TO_POS : List (String × Cell) := MONTHS.map (fun p => (p.2, p.1))

/-- Cells scanned by the `DAYS`-building loop: rows 2..6, columns 0..6. -/
def dayGrid : List Cell :=
  ((List.range 5).map (fun r => r + 2)).flatMap
    (fun r => (List.range BOARD_COLS).map (fun c => (Int.ofNat r, Int.ofNat c)))

/-- One step of the `DAYS`-building loop: the accumulator is the table built
so far together with the next day number to assign. -/
def daysFold (acc : List (Cell × Nat) × Nat) (cell : Cell) : List (Cell × Nat) × Nat :=
  if cell ∉ BLOCKED ∧ acc.2 ≤ 31 then (acc.1 ++ [(cell, acc.2)], acc.2 + 1) else acc

/-- Day positions (row, col) -> day number. -/
def DAYS : List (Cell × Nat) := (dayGrid.foldl daysFold ([], 1)).1

def DAY_TO_POS : List (Nat × Cell) := DAYS.map (fun p => (p.2, p.1))

/-- Return all valid board positions (`get_all_valid_cells`). -/
def get_all_valid_cells : List Cell :=
  (List.range BOARD_ROWS).flatMap (fun r =>
    (List.range BOARD_COLS).filterMap (fun c =>
      if ((r : Int), (c : Int)) ∈ BLOCKED then none else some ((r : Int), (c : Int))))

/-- The 8 puzzle pieces as lists of (row, col) offsets from the origin. -/
def PIECES : List Shape :=
  [[(0, 0), (0, 1), (1, 0), (1, 1), (2, 0), (2, 1)],
   [(0, 0), (1, 0), (2, 0), (3, 0), (3, 1)],
   [(0, 0), (0, 1), (1, 1), (2, 1), (2, 2)],
   [(0, 0), (0, 2), (1, 0), (1, 1), (1, 2)],
   [(0, 1), (1, 0), (1, 1), (2, 0), (3, 0)],
   [(0, 0), (0, 1), (1, 0), (1, 1), (2, 0)],
   [(0, 1), (1, 0), (1, 1), (2, 1), (3, 1)],
   [(0, 0), (1, 0), (2, 0), (2, 1), (2, 2)]]

/-- Python's `min` over a nonempty list of ints (0 on the empty list, where
Python would raise instead; all uses are guarded by nonemptiness). -/
def listMin : List Int → Int
  | [] => 0
  | x :: xs => xs.foldl min x

def listMax : List Int → Int
  | [] => 0
  | x :: xs => xs.foldl max x

/-- Rotate piece 90 degrees clockwise: (r, c) -> (c, -r), then normalize. -/
def rotate_piece (piece : Shape) : Shape :=
  let rotated := piece.map (fun p => (p.2, -p.1))
  let min_r := listMin (rotated.map Prod.fst)
  let min_c := listMin (rotated.map Prod.snd)
  rotated.map (fun p => (p.1 - min_r, p.2 - min_c))

/-- Flip piece horizontally: (r, c) -> (r, -c), then normalize. -/
def flip_piece (piece : Shape) : Shape :=
  let flipped := piece.map (fun p => (p.1, -p.2))
  let min_r := listMin (flipped.map Prod.fst)
  let min_c := listMin (flipped.map Prod.snd)
  flipped.map (fun p => (p.1 - min_r, p.2 - min_c))

/-- Lexicographic order on cells, matching Python tuple comparison. -/
def cellLe (a b : Cell) : Bool := a.1 < b.1 || (a.1 == b.1 && a.2 ≤ b.2)

def insertCell (a : Cell) : List Cell → List Cell
  | [] => [a]
  | b :: l => if cellLe a b then a :: b :: l else b :: insertCell a l

/-- Insertion sort by `cellLe`.  Python's `sorted` also produces the
`cellLe`-sorted permutation of its input, and that permutation is unique
because `cellLe` is total and antisymmetric, so the two agree. -/
def sortCells : List Cell → List Cell
  | [] => []
  | a :: l => insertCell a (sortCells l)

/-- Normalize piece to start at (0,0) and sort cells (the canonical form
`tuple(sorted(normalized))` used as a set key in Python). -/
def normalize_piece (piece : Shape) : Shape :=
  let min_r := listMin (piece.map Prod.fst)
  let min_c := listMin (piece.map Prod.snd)
  sortCells (piece.map (fun p => (p.1 - min_r, p.2 - min_c)))

/-- Deduplicating insertion, modelling `set.add` on canonical forms. -/
def addOrientation (acc : List Shape) (s : Shape) : List Shape :=
  if s ∈ acc then acc else acc ++ [s]

/-- The `for _ in range(4)` loop of `get_all_orientations`. -/
def orientLoop : Nat → Shape → List Shape → List Shape
  | 0, _, acc => acc
  | n + 1, current, acc =>
      orientLoop n (rotate_piece current)
        (addOrientation (addOrientation acc (normalize_piece current))
          (normalize_piece (flip_piece current)))

/-- Get all unique orientations (rotations and flips) of a piece. -/
def get_all_orientations (piece : Shape) : List Shape := orientLoop 4 piece []

/-- Precompute all orientations for all pieces. -/
def precompute_piece_orientations : List (List Shape) := PIECES.map get_all_orientations

/-- Flat row-major index of a cell of the 7x7 numpy array.  `Int.emod`
reproduces numpy's negative-index wraparound. -/
def board_index (r c : Int) : Nat := ((r % 7) * 7 + c % 7).toNat

def boardGet (b : Board) (r c : Int) : Int := b.getD (board_index r c) (-2)

def boardSet (b : Board) (r c : Int) (v : Int) : Board := b.set (board_index r c) v

/-- Check if piece can be placed at given position: every offset cell must be
a valid cell (checked first, as in the Python short-circuit) and empty. -/
def can_place_piece (b : Board) (piece : Shape) (start_row start_col : Int)
    (valid_cells : List Cell) : Bool :=
  piece.all (fun d =>
    if (start_row + d.1, start_col + d.2) ∈ valid_cells then
      boardGet b (start_row + d.1) (start_col + d.2) == -1
    else false)

/-- Place piece on board. -/
def place_piece (b : Board) (piece : Shape) (start_row start_col : Int)
    (piece_id : Int) : Board :=
  piece.foldl (fun bd d => boardSet bd (start_row + d.1) (start_col + d.2) piece_id) b

/-- Remove piece from board. -/
def remove_piece (b : Board) (piece : Shape) (start_row start_col : Int) : Board :=
  piece.foldl (fun bd d => boardSet bd (start_row + d.1) (start_col + d.2) (-1)) b

/-- All 49 cells of the 7x7 grid in reading order. -/
def boardCells : List Cell :=
  (List.range BOARD_ROWS).flatMap (fun r =>
    (List.range BOARD_COLS).map (fun c => ((r : Int), (c : Int))))

/-- Find the first empty cell in reading order. -/
def find_first_empty (b : Board) (valid_cells : List Cell) : Option Cell :=
  boardCells.find? (fun cell =>
    decide (cell ∈ valid_cells) && (boardGet b cell.1 cell.2 == -1))

/-- Mutable state of the Python search: the board array together with the
`used_pieces` flag list, threaded explicitly. -/
abbrev SolveState := Board × List Bool

/-- Innermost loop of `solve`: try the anchor positions that make each offset
of the current orientation land on the chosen empty cell. -/
def tryOffsets (solveRec : Board → List Bool → Bool × SolveState)
    (b : Board) (used : List Bool) (valid_cells : List Cell)
    (piece : Shape) (piece_id : Nat) (row col : Int) :
    List Cell → Bool × SolveState
  | [] => (false, b, used)
  | d :: rest =>
      if can_place_piece b piece (row - d.1) (col - d.2) valid_cells then
        match solveRec (place_piece b piece (row - d.1) (col - d.2) (piece_id : Int))
            (used.set piece_id true) with
        | (true, s) => (true, s)
        | (false, b2, u2) =>
            tryOffsets solveRec (remove_piece b2 piece (row - d.1) (col - d.2))
              (u2.set piece_id false) valid_cells piece piece_id row col rest
      else
        tryOffsets solveRec b used valid_cells piece piece_id row col rest

/-- Middle loop of `solve`: try each orientation of the current piece. -/
def tryOrientations (solveRec : Board → List Bool → Bool × SolveState)
    (b : Board) (used : List Bool) (valid_cells : List Cell)
    (piece_id : Nat) (row col : Int) : List Shape → Bool × SolveState
  | [] => (false, b, used)
  | piece :: rest =>
      match tryOffsets solveRec b used valid_cells piece piece_id row col piece with
      | (true, s) => (true, s)
      | (false, b1, u1) =>
          tryOrientations solveRec b1 u1 valid_cells piece_id row col rest

/-- Outer loop of `solve`: try each unused piece, in pool order. -/
def tryPieces (solveRec : Board → List Bool → Bool × SolveState)
    (b : Board) (used : List Bool) (valid_cells : List Cell)
    (row col : Int) : List (Nat × List Shape) → Bool × SolveState
  | [] => (false, b, used)
  | (piece_id, orientations) :: rest =>
      if used.getD piece_id true then
        tryPieces solveRec b used valid_cells row col rest
      else
        match tryOrientations solveRec b used valid_cells piece_id row col orientations with
        | (true, s) => (true, s)
        | (false, b1, u1) => tryPieces solveRec b1 u1 valid_cells row col rest

/-- Backtracking solver.  The extra fuel argument bounds the recursion depth
of the Python function; the fuel-irrelevance theorem below shows that any
fuel exceeding the number of unused pieces gives the same result, which is
how the unbounded Python recursion is recovered. -/
def solve : Nat → Board → List (List Shape) → List Bool → List Cell → Bool × SolveState
  | 0, b, _, used, _ => (false, b, used)
  | fuel + 1, b, pieces_orientations, used, valid_cells =>
      match find_first_empty b valid_cells with
      | none => (true, b, used)
      | some rc =>
          tryPieces (fun b2 u2 => solve fuel b2 pieces_orientations u2 valid_cells)
            b used valid_cells rc.1 rc.2 pieces_orientations.enum

/-- Python list indexing with negative-index wraparound (`none` models the
IndexError raised on an index out of range). -/
def pyGet (l : List String) (i : Int) : Option String :=
  if 0 ≤ i then l[i.toNat]?
  else if 0 ≤ i + l.length then l[(i + (l.length : Int)).toNat]? else none

/-- Position of the month cell: `MONTH_TO_POS[MONTH_NAMES[month - 1]]`. -/
def month_pos (month : Nat) : Option Cell :=
  match pyGet MONTH_NAMES ((month : Int) - 1) with
  | some name => MONTH_TO_POS.lookup name
  | none => none

/-- Position of the day cell: `DAY_TO_POS[day]`. -/
def day_pos (d : Nat) : Option Cell := DAY_TO_POS.lookup d

/-- Valid cells for one query: all valid cells minus the two targets. -/
def valid_for (month_p day_p : Cell) : List Cell :=
  (get_all_valid_cells.filter (fun cell => decide (cell ≠ month_p))).filter
    (fun cell => decide (cell ≠ day_p))

/-- Board initialization: -1 means empty, -2 means blocked/target. -/
def initial_board (valid_cells : List Cell) : Board :=
  valid_cells.foldl (fun b cell => boardSet b cell.1 cell.2 (-1))
    (List.replicate (BOARD_ROWS * BOARD_COLS) (-2))

/-- The part of `solve_puzzle` after the date lookups. -/
def solve_core (mp dp : Cell) : Option Board :=
  let valid_cells := valid_for mp dp
  match solve 9 (initial_board valid_cells) precompute_piece_orientations
      (List.replicate PIECES.length false) valid_cells with
  | (true, b, _) => some b
  | (false, _, _) => none

/-- Solve the puzzle for a given month (1-12) and day (1-31); returns the
board with piece IDs or `none` if no solution. -/
def solve_puzzle (month day : Nat) : Option Board :=
  match month_pos month, day_pos day with
  | some mp, some dp => solve_core mp dp
  | _, _ => none

/-- Exception-aware variant of `solve_puzzle`: the two dictionary lookups and
the list indexing of the Python function can raise, everything else is total. -/
def solve_puzzleE (month day : Nat) : Except String (Option Board) :=
  match pyGet MONTH_NAMES ((month : Int) - 1) with
  | none => Except.error "IndexError: list index out of range"
  | some name =>
      match MONTH_TO_POS.lookup name with
      | none => Except.error "KeyError: month name"
      | some mp =>
          match DAY_TO_POS.lookup day with
          | none => Except.error "KeyError: day"
          | some dp => Except.ok (solve_core mp dp)

/-- Cell lies in the real index range of the 7x7 array. -/
def inBounds (cell : Cell) : Prop :=
  0 ≤ cell.1 ∧ cell.1 < 7 ∧ 0 ≤ cell.2 ∧ cell.2 < 7

instance (cell : Cell) : Decidable (inBounds cell) := by
  unfold inBounds; infer_instance

/-- Number of valid cells currently carrying the given piece id. -/
def countPid (b : Board) (valid_cells : List Cell) (pid : Nat) : Nat :=
  (valid_cells.filter (fun cell => boardGet b cell.1 cell.2 == (pid : Int))).length

/-- Proof-side view of `place_piece`/`remove_piece`: write one value at a
list of cells. -/
def writeCells (v : Int) (cells : List Cell) (b : Board) : Board :=
  cells.foldl (fun bd cell => boardSet bd cell.1 cell.2 v) b

/-- Cells actually written by a placement of `piece` anchored at (sr, sc). -/
def shiftCells (piece : Shape) (sr sc : Int) : List Cell :=
  piece.map (fun d => (sr + d.1, sc + d.2))

/-- Static well-formedness of a query's valid-cell set. -/
structure ValidOk (valid_cells : List Cell) : Prop where
  nodup : valid_cells.Nodup
  bounds : ∀ cell ∈ valid_cells, inBounds cell

/-- Invariant maintained by `solve` on the board/used-flags state. -/
structure Inv (valid_cells : List Cell) (b : Board) (used : List Bool) : Prop where
  hlen : b.length = 49
  hulen : used.length = 8
  hoff : ∀ cell : Cell, inBounds cell → cell ∉ valid_cells → boardGet b cell.1 cell.2 = -2
  hval : ∀ cell ∈ valid_cells, boardGet b cell.1 cell.2 = -1 ∨
    ∃ pid : Nat, pid < 8 ∧ used.getD pid false = true ∧
      boardGet b cell.1 cell.2 = (pid : Int)
  hcount : ∀ pid : Nat, pid < 8 →
    countPid b valid_cells pid =
      if used.getD pid false = true then (PIECES.getD pid []).length else 0

/-- One planned placement: piece id, orientation, anchor row and column. -/
abbrev Placement := Nat × Shape × Int × Int

/-- Cells covered by one planned placement. -/
def placementCells (q : Placement) : List Cell := shiftCells q.2.1 q.2.2.1 q.2.2.2

/-- The plan is an exact cover of the currently empty valid cells by unused
pieces, each with an orientation from the precomputed table. -/
structure ExtendsTo (b : Board) (used : List Bool) (valid_cells : List Cell)
    (plan : List Placement) : Prop where
  hpieces : ∀ q ∈ plan, q.1 < precompute_piece_orientations.length ∧
    q.2.1 ∈ precompute_piece_orientations.getD q.1 [] ∧ used.getD q.1 true = false
  hids : (plan.map (fun q => q.1)).Nodup
  hcells : (plan.flatMap placementCells).Nodup
  hok : ∀ cell ∈ plan.flatMap placementCells,
    cell ∈ valid_cells ∧ boardGet b cell.1 cell.2 = -1
  hall : ∀ cell ∈ valid_cells, boardGet b cell.1 cell.2 = -1 →
    cell ∈ plan.flatMap placementCells

/-- Exact-cover plan witnessing that the January-1 query is solvable: one
placement per piece, with an orientation from the precomputed table. -/
def plan11 : List Placement :=
  [(0, [(0, 0), (0, 1), (0, 2), (1, 0), (1, 1), (1, 2)], 4, 4),
   (1, [(0, 0), (0, 1), (0, 2), (0, 3), (1, 3)], 0, 1),
   (2, [(0, 0), (0, 1), (1, 1), (2, 1), (2, 2)], 1, 0),
   (3, [(0, 0), (0, 1), (1, 1), (2, 0), (2, 1)], 4, 1),
   (4, [(0, 0), (1, 0), (2, 0), (2, 1), (3, 1)], 0, 5),
   (5, [(0, 0), (0, 1), (1, 0), (1, 1), (1, 2)], 1, 2),
   (6, [(0, 0), (1, 0), (2, 0), (2, 1), (3, 0)], 3, 0),
   (7, [(0, 0), (0, 1), (0, 2), (1, 0), (2, 0)], 3, 3)]

/-- Board states reachable from `b` by the mutation steps the search
performs: placements that passed the feasibility check, and removals of a
piece whose cells all lie in the valid set (which holds for every removal
the search performs, since it only removes pieces it previously placed
after a successful feasibility check). -/
inductive SolveReach (valid_cells : List Cell) (b : Board) : Board → Prop
  | refl : SolveReach valid_cells b b
  | place {b2 : Board} (piece : Shape) (sr sc pid : Int) :
      SolveReach valid_cells b b2 →
      can_place_piece b2 piece sr sc valid_cells = true →
      SolveReach valid_cells b (place_piece b2 piece sr sc pid)
  | remove {b2 : Board} (piece : Shape) (sr sc : Int) :
      SolveReach valid_cells b b2 →
      (∀ d ∈ piece, (sr + d.1, sc + d.2) ∈ valid_cells) →
      SolveReach valid_cells b (remove_piece b2 piece sr sc)

/-! ### Minima of integer lists -/

theorem foldl_min_le (ys : List Int) (a : Int) : ys.foldl min a ≤ a := by
  induction ys generalizing a with
  | nil => exact le_refl a
  | cons y ys ih => exact le_trans (ih (min a y)) (min_le_left a y)

theorem foldl_min_le_of_mem (ys : List Int) (a x : Int) (hx : x ∈ ys) :
    ys.foldl min a ≤ x := by
  induction ys generalizing a with
  | nil => cases hx
  | cons y ys ih =>
      rcases List.mem_cons.mp hx with h | h
      · subst h
        exact le_trans (foldl_min_le ys (min a x)) (min_le_right a x)
      · exact ih (min a y) h

theorem foldl_min_eq_or_mem (ys : List Int) (a : Int) :
    ys.foldl min a = a ∨ ys.foldl min a ∈ ys := by
  induction ys generalizing a with
  | nil => exact Or.inl rfl
  | cons y ys ih =>
      rcases ih (min a y) with h | h
      · rcases min_choice a y with hm | hm
        · exact Or.inl (by rw [List.foldl_cons, h, hm])
        · exact Or.inr (by rw [List.foldl_cons, h, hm]; exact List.mem_cons_self y ys)
      · exact Or.inr (List.mem_cons_of_mem y h)

theorem listMin_le (l : List Int) (x : Int) (hx : x ∈ l) : listMin l ≤ x := by
  cases l with
  | nil => cases hx
  | cons y ys =>
      rcases List.mem_cons.mp hx with h | h
      · subst h; exact foldl_min_le ys x
      · exact foldl_min_le_of_mem ys y x h

theorem listMin_mem (l : List Int) (h : l ≠ []) : listMin l ∈ l := by
  cases l with
  | nil => exact absurd rfl h
  | cons y ys =>
      rcases foldl_min_eq_or_mem ys y with h1 | h1
      · exact List.mem_cons.mpr (Or.inl h1)
      · exact List.mem_cons.mpr (Or.inr h1)

theorem listMin_perm {l l' : List Int} (h : l.Perm l') : listMin l = listMin l' := by
  cases l with
  | nil =>
      have : l' = [] := h.nil_eq.symm
      rw [this]
  | cons y ys =>
      have hne : (y :: ys) ≠ ([] : List Int) := by simp
      have hne' : l' ≠ [] := by
        intro hcon
        subst hcon
        exact hne h.eq_nil
      exact le_antisymm
        (listMin_le _ _ (h.mem_iff.mpr (listMin_mem l' hne')))
        (listMin_le _ _ (h.mem_iff.mp (listMin_mem _ hne)))

/-! ### Sorting used by `normalize_piece` -/

theorem insertCell_perm (a : Cell) (l : List Cell) :
    (insertCell a l).Perm (a :: l) := by
  induction l with
  | nil => exact List.Perm.refl _
  | cons b l ih =>
      unfold insertCell
      by_cases hc : cellLe a b = true
      · rw [if_pos hc]
      · rw [if_neg hc]
        exact List.Perm.trans (List.Perm.cons b ih) (List.Perm.swap a b l)

theorem sortCells_perm (l : List Cell) : (sortCells l).Perm l := by
  induction l with
  | nil => exact List.Perm.refl _
  | cons a l ih =>
      exact List.Perm.trans (insertCell_perm a (sortCells l)) (List.Perm.cons a ih)

theorem normalize_piece_perm (piece : Shape) :
    (normalize_piece piece).Perm
      (piece.map (fun p =>
        (p.1 - listMin (piece.map Prod.fst), p.2 - listMin (piece.map Prod.snd)))) := by
  unfold normalize_piece
  exact sortCells_perm _

theorem foldl_min_map_sub (l : List Int) (x a : Int) :
    (l.map (fun y => y - a)).foldl min (x - a) = l.foldl min x - a := by
  induction l generalizing x with
  | nil => rfl
  | cons y ys ih =>
      simp only [List.map_cons, List.foldl_cons]
      rw [min_sub_sub_right]
      exact ih (min x y)

theorem listMin_map_sub (l : List Int) (a : Int) (h : l ≠ []) :
    listMin (l.map (fun y => y - a)) = listMin l - a := by
  cases l with
  | nil => exact absurd rfl h
  | cons y ys =>
      simp only [List.map_cons, listMin]
      exact foldl_min_map_sub ys y a

/-- After normalization the minimum row offset is 0 (also for the empty
shape, where `listMin` defaults to 0). -/
theorem normalize_piece_min_fst (piece : Shape) :
    listMin ((normalize_piece piece).map Prod.fst) = 0 := by
  cases piece with
  | nil => rfl
  | cons q qs =>
      have hperm := (normalize_piece_perm (q :: qs)).map Prod.fst
      rw [listMin_perm hperm]
      have : ((q :: qs).map (fun p : Cell =>
          (p.1 - listMin ((q :: qs).map Prod.fst),
           p.2 - listMin ((q :: qs).map Prod.snd)))).map Prod.fst
          = ((q :: qs).map Prod.fst).map (fun y => y - listMin ((q :: qs).map Prod.fst)) := by
        simp [List.map_map, Function.comp]
      rw [this, listMin_map_sub _ _ (by simp)]
      omega

theorem normalize_piece_min_snd (piece : Shape) :
    listMin ((normalize_piece piece).map Prod.snd) = 0 := by
  cases piece with
  | nil => rfl
  | cons q qs =>
      have hperm := (normalize_piece_perm (q :: qs)).map Prod.snd
      rw [listMin_perm hperm]
      have : ((q :: qs).map (fun p : Cell =>
          (p.1 - listMin ((q :: qs).map Prod.fst),
           p.2 - listMin ((q :: qs).map Prod.snd)))).map Prod.snd
          = ((q :: qs).map Prod.snd).map (fun y => y - listMin ((q :: qs).map Prod.snd)) := by
        simp [List.map_map, Function.comp]
      rw [this, listMin_map_sub _ _ (by simp)]
      omega

/-! ### The orientation set -/

theorem addOrientation_mem_of_mem {acc : List Shape} {s : Shape} (t : Shape)
    (h : s ∈ acc) : s ∈ addOrientation acc t := by
  unfold addOrientation
  by_cases ht : t ∈ acc
  · simpa [ht]
  · simp [ht, List.mem_append, h]

theorem addOrientation_mem_self (acc : List Shape) (t : Shape) :
    t ∈ addOrientation acc t := by
  unfold addOrientation
  by_cases ht : t ∈ acc
  · simp [ht]
  · simp [ht]

theorem addOrientation_mem_cases {acc : List Shape} {s : Shape} {t : Shape}
    (h : s ∈ addOrientation acc t) : s ∈ acc ∨ s = t := by
  unfold addOrientation at h
  by_cases ht : t ∈ acc
  · simp [ht] at h
    exact Or.inl h
  · simp [ht, List.mem_append] at h
    exact h

theorem addOrientation_length (acc : List Shape) (t : Shape) :
    (addOrientation acc t).length ≤ acc.length + 1 := by
  unfold addOrientation
  by_cases ht : t ∈ acc
  · simp [ht]
  · simp [ht]

theorem addOrientation_nodup {acc : List Shape} (t : Shape) (h : acc.Nodup) :
    (addOrientation acc t).Nodup := by
  unfold addOrientation
  by_cases ht : t ∈ acc
  · simpa [ht]
  · simp only [ht, if_neg, not_false_iff]
    rw [List.nodup_append]
    exact ⟨h, List.nodup_singleton t, by simpa using ht⟩

theorem orientLoop_mem_of_mem {s : Shape} :
    ∀ (n : Nat) (cur : Shape) (acc : List Shape), s ∈ acc → s ∈ orientLoop n cur acc := by
  intro n
  induction n with
  | zero => intro cur acc h; exact h
  | succ n ih =>
      intro cur acc h
      exact ih _ _ (addOrientation_mem_of_mem _ (addOrientation_mem_of_mem _ h))

theorem orientLoop_length :
    ∀ (n : Nat) (cur : Shape) (acc : List Shape),
      (orientLoop n cur acc).length ≤ acc.length + 2 * n := by
  intro n
  induction n with
  | zero => intro cur acc; exact le_refl _
  | succ n ih =>
      intro cur acc
      refine le_trans (ih _ _) ?_
      have h1 := addOrientation_length (addOrientation acc (normalize_piece cur))
        (normalize_piece (flip_piece cur))
      have h2 := addOrientation_length acc (normalize_piece cur)
      omega

theorem orientLoop_nodup :
    ∀ (n : Nat) (cur : Shape) (acc : List Shape), acc.Nodup → (orientLoop n cur acc).Nodup := by
  intro n
  induction n with
  | zero => intro cur acc h; exact h
  | succ n ih =>
      intro cur acc h
      exact ih _ _ (addOrientation_nodup _ (addOrientation_nodup _ h))

theorem orientLoop_mem_cases {s : Shape} :
    ∀ (n : Nat) (cur : Shape) (acc : List Shape),
      s ∈ orientLoop n cur acc → s ∈ acc ∨ ∃ x, s = normalize_piece x := by
  intro n
  induction n with
  | zero => intro cur acc h; exact Or.inl h
  | succ n ih =>
      intro cur acc h
      rcases ih _ _ h with h1 | h1
      · rcases addOrientation_mem_cases h1 with h2 | h2
        · rcases addOrientation_mem_cases h2 with h3 | h3
          · exact Or.inl h3
          · exact Or.inr ⟨cur, h3⟩
        · exact Or.inr ⟨flip_piece cur, h2⟩
      · exact Or.inr h1

theorem get_all_orientations_nonempty (piece : Shape) :
    1 ≤ (get_all_orientations piece).length := by
  have hm : normalize_piece piece ∈ get_all_orientations piece := by
    unfold get_all_orientations orientLoop
    exact orientLoop_mem_of_mem _ _ _
      (addOrientation_mem_of_mem _ (addOrientation_mem_self _ _))
  exact List.length_pos.mpr (List.ne_nil_of_mem hm)

theorem get_all_orientations_le_eight (piece : Shape) :
    (get_all_orientations piece).length ≤ 8 := by
  have h := orientLoop_length 4 piece []
  simp only [List.length_nil] at h
  exact h

theorem get_all_orientations_nodup (piece : Shape) :
    (get_all_orientations piece).Nodup := by
  exact orientLoop_nodup 4 piece [] List.nodup_nil

theorem get_all_orientations_normalized (piece : Shape) :
    ∀ o ∈ get_all_orientations piece,
      listMin (o.map Prod.fst) = 0 ∧ listMin (o.map Prod.snd) = 0 := by
  intro o ho
  rcases orientLoop_mem_cases 4 piece [] ho with h | ⟨x, hx⟩
  · cases h
  · subst hx
    exact ⟨normalize_piece_min_fst x, normalize_piece_min_snd x⟩

/-! ### Board reads and writes -/

theorem place_piece_eq_writeCells (b : Board) (piece : Shape) (sr sc : Int) (pid : Int) :
    place_piece b piece sr sc pid = writeCells pid (shiftCells piece sr sc) b := by
  unfold place_piece writeCells shiftCells
  rw [List.foldl_map]

theorem remove_piece_eq_writeCells (b : Board) (piece : Shape) (sr sc : Int) :
    remove_piece b piece sr sc = writeCells (-1) (shiftCells piece sr sc) b := by
  unfold remove_piece writeCells shiftCells
  rw [List.foldl_map]

theorem writeCells_cons (v : Int) (x : Cell) (cells : List Cell) (b : Board) :
    writeCells v (x :: cells) b = writeCells v cells (boardSet b x.1 x.2 v) := rfl

theorem writeCells_length (v : Int) (cells : List Cell) (b : Board) :
    (writeCells v cells b).length = b.length := by
  induction cells generalizing b with
  | nil => rfl
  | cons x cells ih =>
      rw [writeCells_cons, ih]
      exact List.length_set b _ _

theorem writeCells_getElem? (v : Int) (cells : List Cell) (b : Board) (j : Nat) :
    (writeCells v cells b)[j]? =
      if j ∈ cells.map (fun cell => board_index cell.1 cell.2) ∧ j < b.length
      then some v else b[j]? := by
  induction cells generalizing b with
  | nil => simp [writeCells]
  | cons x cells ih =>
      rw [writeCells_cons, ih]
      have hlen : (boardSet b x.1 x.2 v).length = b.length := List.length_set b _ _
      rw [hlen]
      simp only [List.map_cons, List.mem_cons]
      unfold boardSet
      rw [List.getElem?_set]
      by_cases h2 : j < b.length
      · by_cases h1 : j ∈ cells.map (fun cell => board_index cell.1 cell.2)
        · simp [h1, h2]
        · by_cases hx : board_index x.1 x.2 = j
          · simp [h1, h2, hx]
          · have hx2 : ¬(j = board_index x.1 x.2) := fun hh => hx hh.symm
            simp [h1, h2, hx, hx2]
      · have hb : b[j]? = none := by
          rw [List.getElem?_eq_none_iff]
          omega
        by_cases hx : board_index x.1 x.2 = j
        · simp [h2, hx, hb]
        · have hx2 : ¬(j = board_index x.1 x.2) := fun hh => hx hh.symm
          simp [h2, hx, hx2, hb]

theorem boardGet_writeCells (v : Int) (cells : List Cell) (b : Board) (r c : Int) :
    boardGet (writeCells v cells b) r c =
      if board_index r c ∈ cells.map (fun cell => board_index cell.1 cell.2) ∧
          board_index r c < b.length
      then v else boardGet b r c := by
  unfold boardGet
  rw [List.getD_eq_getElem?_getD, writeCells_getElem?]
  by_cases h : board_index r c ∈ cells.map (fun cell => board_index cell.1 cell.2) ∧
      board_index r c < b.length
  · rw [if_pos h, if_pos h]
    rfl
  · rw [if_neg h, if_neg h, List.getD_eq_getElem?_getD]

theorem board_index_eq_of_inBounds (cell : Cell) (h : inBounds cell) :
    board_index cell.1 cell.2 = (cell.1 * 7 + cell.2).toNat := by
  obtain ⟨h1, h2, h3, h4⟩ := h
  unfold board_index
  omega

theorem board_index_lt (cell : Cell) (h : inBounds cell) :
    board_index cell.1 cell.2 < 49 := by
  rw [board_index_eq_of_inBounds cell h]
  obtain ⟨h1, h2, h3, h4⟩ := h
  omega

theorem board_index_inj {a b : Cell} (ha : inBounds a) (hb : inBounds b)
    (h : board_index a.1 a.2 = board_index b.1 b.2) : a = b := by
  unfold board_index at h
  obtain ⟨ha1, ha2, ha3, ha4⟩ := ha
  obtain ⟨hb1, hb2, hb3, hb4⟩ := hb
  have h1 : a.1 = b.1 := by omega
  have h2 : a.2 = b.2 := by omega
  exact Prod.ext h1 h2

theorem boardGet_writeCells_inBounds (v : Int) (cells : List Cell) (b : Board)
    (cell : Cell) (hcells : ∀ x ∈ cells, inBounds x) (hcell : inBounds cell)
    (hlen : b.length = 49) :
    boardGet (writeCells v cells b) cell.1 cell.2 =
      if cell ∈ cells then v else boardGet b cell.1 cell.2 := by
  rw [boardGet_writeCells]
  by_cases hc : cell ∈ cells
  · have hmem : board_index cell.1 cell.2 ∈
        cells.map (fun x => board_index x.1 x.2) :=
      List.mem_map_of_mem _ hc
    simp [hc, hmem, hlen, board_index_lt cell hcell]
  · have hmem : board_index cell.1 cell.2 ∉
        cells.map (fun x => board_index x.1 x.2) := by
      intro hmem
      rcases List.mem_map.mp hmem with ⟨x, hx, hxe⟩
      exact hc (board_index_inj (hcells x hx) hcell hxe ▸ hx)
    simp [hc, hmem]

theorem boardGet_writeCells_notMem (v : Int) (cells : List Cell) (b : Board)
    (cell : Cell) (hcells : ∀ x ∈ cells, inBounds x) (hcell : inBounds cell)
    (hc : cell ∉ cells) :
    boardGet (writeCells v cells b) cell.1 cell.2 = boardGet b cell.1 cell.2 := by
  rw [boardGet_writeCells]
  have hmem : board_index cell.1 cell.2 ∉
      cells.map (fun x => board_index x.1 x.2) := by
    intro hmem
    rcases List.mem_map.mp hmem with ⟨x, hx, hxe⟩
    exact hc (board_index_inj (hcells x hx) hcell hxe ▸ hx)
  simp [hmem]

/-- Specification of the feasibility check: all offset cells valid and empty. -/
theorem can_place_piece_spec (b : Board) (piece : Shape) (sr sc : Int)
    (valid_cells : List Cell) :
    can_place_piece b piece sr sc valid_cells = true ↔
      ∀ d ∈ piece, (sr + d.1, sc + d.2) ∈ valid_cells ∧
        boardGet b (sr + d.1) (sc + d.2) = -1 := by
  unfold can_place_piece
  rw [List.all_eq_true]
  constructor
  · intro h d hd
    have := h d hd
    by_cases hm : (sr + d.1, sc + d.2) ∈ valid_cells
    · rw [if_pos hm] at this
      exact ⟨hm, by simpa using this⟩
    · rw [if_neg hm] at this
      cases this
  · intro h d hd
    obtain ⟨hm, he⟩ := h d hd
    rw [if_pos hm]
    simpa using he

/-- Undoing a feasible placement restores the board exactly. -/
theorem writeCells_restore (cells : List Cell) (v : Int) (b : Board)
    (hv : ∀ x ∈ cells, boardGet b x.1 x.2 = -1) :
    writeCells (-1) cells (writeCells v cells b) = b := by
  apply List.ext_getElem?
  intro j
  have hlen : (writeCells v cells b).length = b.length := writeCells_length v cells b
  rw [writeCells_getElem?, writeCells_getElem?, hlen]
  by_cases hj : j ∈ cells.map (fun cell => board_index cell.1 cell.2) ∧ j < b.length
  · rcases List.mem_map.mp hj.1 with ⟨x, hx, hxe⟩
    have hbx : b[j]? = some (-1) := by
      have := hv x hx
      unfold boardGet at this
      rw [List.getD_eq_getElem?_getD, hxe] at this
      cases hb : b[j]? with
      | none => rw [hb] at this; simp at this
      | some w => rw [hb] at this; simp at this; rw [this]
    simp [hj, hbx]
  · rw [if_neg hj, if_neg hj]

theorem remove_place_restore (b : Board) (piece : Shape) (sr sc : Int) (pid : Int)
    (valid_cells : List Cell)
    (hcan : can_place_piece b piece sr sc valid_cells = true) :
    remove_piece (place_piece b piece sr sc pid) piece sr sc = b := by
  rw [place_piece_eq_writeCells, remove_piece_eq_writeCells]
  apply writeCells_restore
  intro x hx
  rcases List.mem_map.mp hx with ⟨d, hd, hde⟩
  have := ((can_place_piece_spec b piece sr sc valid_cells).mp hcan) d hd
  rw [← hde]
  exact this.2

/-! ### List set lemmas for the used-pieces flags -/

theorem getD_set {α : Type} (l : List α) (i j : Nat) (v d : α) :
    (l.set i v).getD j d = if i = j ∧ i < l.length then v else l.getD j d := by
  rw [List.getD_eq_getElem?_getD, List.getD_eq_getElem?_getD, List.getElem?_set]
  by_cases h1 : i = j
  · subst h1
    by_cases h2 : i < l.length
    · simp [h2]
    · have hn : l[i]? = none := by
        rw [List.getElem?_eq_none_iff]
        omega
      simp [h2, hn]
  · simp [h1]

theorem set_set_cancel (u : List Bool) (i : Nat) (h : u.getD i true = false) :
    (u.set i true).set i false = u := by
  rw [List.set_set]
  have hi : u[i]? = some false := by
    rw [List.getD_eq_getElem?_getD] at h
    cases hb : u[i]? with
    | none => rw [hb] at h; simp at h
    | some w => rw [hb] at h; simp at h; rw [h]
  have hilen : i < u.length := by
    by_contra hc
    have hn : u[i]? = none := by
      rw [List.getElem?_eq_none_iff]
      omega
    rw [hn] at hi
    cases hi
  apply List.ext_getElem?
  intro j
  rw [List.getElem?_set]
  by_cases h1 : i = j
  · subst h1
    simp [hilen, hi]
  · simp [h1]

/-! ### Branch equations for the search loops -/

theorem tryOffsets_nil (solveRec : Board → List Bool → Bool × SolveState)
    (b : Board) (used : List Bool) (valid_cells : List Cell) (piece : Shape)
    (piece_id : Nat) (row col : Int) :
    tryOffsets solveRec b used valid_cells piece piece_id row col [] = (false, b, used) := rfl

theorem tryOffsets_cons_true {solveRec : Board → List Bool → Bool × SolveState}
    {b : Board} {used : List Bool} {valid_cells : List Cell} {piece : Shape}
    {piece_id : Nat} {row col : Int} {d : Cell} {rest : List Cell} {s : SolveState}
    (hcan : can_place_piece b piece (row - d.1) (col - d.2) valid_cells = true)
    (hsr : solveRec (place_piece b piece (row - d.1) (col - d.2) (piece_id : Int))
      (used.set piece_id true) = (true, s)) :
    tryOffsets solveRec b used valid_cells piece piece_id row col (d :: rest) = (true, s) := by
  simp only [tryOffsets, hcan, hsr, if_true]

theorem tryOffsets_cons_false {solveRec : Board → List Bool → Bool × SolveState}
    {b : Board} {used : List Bool} {valid_cells : List Cell} {piece : Shape}
    {piece_id : Nat} {row col : Int} {d : Cell} {rest : List Cell}
    {b2 : Board} {u2 : List Bool}
    (hcan : can_place_piece b piece (row - d.1) (col - d.2) valid_cells = true)
    (hsr : solveRec (place_piece b piece (row - d.1) (col - d.2) (piece_id : Int))
      (used.set piece_id true) = (false, b2, u2)) :
    tryOffsets solveRec b used valid_cells piece piece_id row col (d :: rest) =
      tryOffsets solveRec (remove_piece b2 piece (row - d.1) (col - d.2))
        (u2.set piece_id false) valid_cells piece piece_id row col rest := by
  simp only [tryOffsets, hcan, hsr, if_true]

theorem tryOffsets_cons_skip {solveRec : Board → List Bool → Bool × SolveState}
    {b : Board} {used : List Bool} {valid_cells : List Cell} {piece : Shape}
    {piece_id : Nat} {row col : Int} {d : Cell} {rest : List Cell}
    (hcan : ¬can_place_piece b piece (row - d.1) (col - d.2) valid_cells = true) :
    tryOffsets solveRec b used valid_cells piece piece_id row col (d :: rest) =
      tryOffsets solveRec b used valid_cells piece piece_id row col rest := by
  simp only [tryOffsets, hcan, Bool.false_eq_true, if_false]

theorem tryOrientations_nil (solveRec : Board → List Bool → Bool × SolveState)
    (b : Board) (used : List Bool) (valid_cells : List Cell)
    (piece_id : Nat) (row col : Int) :
    tryOrientations solveRec b used valid_cells piece_id row col [] = (false, b, used) := rfl

theorem tryOrientations_cons_true {solveRec : Board → List Bool → Bool × SolveState}
    {b : Board} {used : List Bool} {valid_cells : List Cell} {piece : Shape}
    {piece_id : Nat} {row col : Int} {rest : List Shape} {s : SolveState}
    (h : tryOffsets solveRec b used valid_cells piece piece_id row col piece = (true, s)) :
    tryOrientations solveRec b used valid_cells piece_id row col (piece :: rest) = (true, s) := by
  simp only [tryOrientations, h]

theorem tryOrientations_cons_false {solveRec : Board → List Bool → Bool × SolveState}
    {b : Board} {used : List Bool} {valid_cells : List Cell} {piece : Shape}
    {piece_id : Nat} {row col : Int} {rest : List Shape} {b1 : Board} {u1 : List Bool}
    (h : tryOffsets solveRec b used valid_cells piece piece_id row col piece = (false, b1, u1)) :
    tryOrientations solveRec b used valid_cells piece_id row col (piece :: rest) =
      tryOrientations solveRec b1 u1 valid_cells piece_id row col rest := by
  simp only [tryOrientations, h]

theorem tryPieces_nil (solveRec : Board → List Bool → Bool × SolveState)
    (b : Board) (used : List Bool) (valid_cells : List Cell) (row col : Int) :
    tryPieces solveRec b used valid_cells row col [] = (false, b, used) := rfl

theorem tryPieces_cons_used {solveRec : Board → List Bool → Bool × SolveState}
    {b : Board} {used : List Bool} {valid_cells : List Cell}
    {piece_id : Nat} {orientations : List Shape} {row col : Int}
    {rest : List (Nat × List Shape)}
    (h : used.getD piece_id true = true) :
    tryPieces solveRec b used valid_cells row col ((piece_id, orientations) :: rest) =
      tryPieces solveRec b used valid_cells row col rest := by
  simp only [tryPieces, h, if_true]

theorem tryPieces_cons_true {solveRec : Board → List Bool → Bool × SolveState}
    {b : Board} {used : List Bool} {valid_cells : List Cell}
    {piece_id : Nat} {orientations : List Shape} {row col : Int}
    {rest : List (Nat × List Shape)} {s : SolveState}
    (h : used.getD piece_id true = false)
    (ht : tryOrientations solveRec b used valid_cells piece_id row col orientations = (true, s)) :
    tryPieces solveRec b used valid_cells row col ((piece_id, orientations) :: rest) =
      (true, s) := by
  simp only [tryPieces, h, ht, Bool.false_eq_true, if_false]

theorem tryPieces_cons_false {solveRec : Board → List Bool → Bool × SolveState}
    {b : Board} {used : List Bool} {valid_cells : List Cell}
    {piece_id : Nat} {orientations : List Shape} {row col : Int}
    {rest : List (Nat × List Shape)} {b1 : Board} {u1 : List Bool}
    (h : used.getD piece_id true = false)
    (ht : tryOrientations solveRec b used valid_cells piece_id row col orientations
      = (false, b1, u1)) :
    tryPieces solveRec b used valid_cells row col ((piece_id, orientations) :: rest) =
      tryPieces solveRec b1 u1 valid_cells row col rest := by
  simp only [tryPieces, h, ht, Bool.false_eq_true, if_false]

theorem solve_zero (b : Board) (po : List (List Shape)) (used : List Bool)
    (valid_cells : List Cell) : solve 0 b po used valid_cells = (false, b, used) := rfl

theorem solve_succ_none {fuel : Nat} {b : Board} {po : List (List Shape)}
    {used : List Bool} {valid_cells : List Cell}
    (hfe : find_first_empty b valid_cells = none) :
    solve (fuel + 1) b po used valid_cells = (true, b, used) := by
  simp only [solve, hfe]

theorem solve_succ_some {fuel : Nat} {b : Board} {po : List (List Shape)}
    {used : List Bool} {valid_cells : List Cell} {rc : Cell}
    (hfe : find_first_empty b valid_cells = some rc) :
    solve (fuel + 1) b po used valid_cells =
      tryPieces (fun b2 u2 => solve fuel b2 po u2 valid_cells)
        b used valid_cells rc.1 rc.2 po.enum := by
  simp only [solve, hfe]

/-! ### Failure restores the state (backtracking discipline) -/

theorem tryOffsets_restore {solveRec : Board → List Bool → Bool × SolveState}
    (hrec : ∀ b u, (solveRec b u).1 = false → (solveRec b u).2 = (b, u))
    (b : Board) (used : List Bool) (valid_cells : List Cell) (piece : Shape)
    (piece_id : Nat) (row col : Int) (offsets : List Cell)
    (hused : used.getD piece_id true = false) :
    (tryOffsets solveRec b used valid_cells piece piece_id row col offsets).1 = false →
    (tryOffsets solveRec b used valid_cells piece piece_id row col offsets).2 = (b, used) := by
  induction offsets with
  | nil => intro _; rfl
  | cons d rest ih =>
      by_cases hcan : can_place_piece b piece (row - d.1) (col - d.2) valid_cells = true
      · rcases hsr : solveRec (place_piece b piece (row - d.1) (col - d.2) (piece_id : Int))
            (used.set piece_id true) with ⟨flag, b2, u2⟩
        cases flag with
        | true =>
            rw [tryOffsets_cons_true hcan hsr]
            intro hfalse
            cases hfalse
        | false =>
            have hres := hrec _ _ (by rw [hsr])
            rw [hsr] at hres
            have hb2 : b2 = place_piece b piece (row - d.1) (col - d.2) (piece_id : Int) :=
              congrArg Prod.fst hres
            have hu2 : u2 = used.set piece_id true := congrArg Prod.snd hres
            rw [tryOffsets_cons_false hcan hsr, hb2, hu2,
              remove_place_restore b piece (row - d.1) (col - d.2) (piece_id : Int)
                valid_cells hcan,
              set_set_cancel used piece_id hused]
            exact ih
      · rw [tryOffsets_cons_skip hcan]
        exact ih

theorem tryOrientations_restore {solveRec : Board → List Bool → Bool × SolveState}
    (hrec : ∀ b u, (solveRec b u).1 = false → (solveRec b u).2 = (b, u))
    (b : Board) (used : List Bool) (valid_cells : List Cell)
    (piece_id : Nat) (row col : Int) (orientations : List Shape)
    (hused : used.getD piece_id true = false) :
    (tryOrientations solveRec b used valid_cells piece_id row col orientations).1 = false →
    (tryOrientations solveRec b used valid_cells piece_id row col orientations).2 = (b, used) := by
  induction orientations with
  | nil => intro _; rfl
  | cons piece rest ih =>
      rcases hto : tryOffsets solveRec b used valid_cells piece piece_id row col piece
          with ⟨flag, b1, u1⟩
      cases flag with
      | true =>
          rw [tryOrientations_cons_true hto]
          intro hfalse
          cases hfalse
      | false =>
          have hres := tryOffsets_restore hrec b used valid_cells piece piece_id row col
            piece hused (by rw [hto])
          rw [hto] at hres
          have hb1 : b1 = b := congrArg Prod.fst hres
          have hu1 : u1 = used := congrArg Prod.snd hres
          rw [tryOrientations_cons_false hto, hb1, hu1]
          exact ih

theorem tryPieces_restore {solveRec : Board → List Bool → Bool × SolveState}
    (hrec : ∀ b u, (solveRec b u).1 = false → (solveRec b u).2 = (b, u))
    (b : Board) (used : List Bool) (valid_cells : List Cell) (row col : Int)
    (entries : List (Nat × List Shape)) :
    (tryPieces solveRec b used valid_cells row col entries).1 = false →
    (tryPieces solveRec b used valid_cells row col entries).2 = (b, used) := by
  induction entries with
  | nil => intro _; rfl
  | cons entry rest ih =>
      rcases entry with ⟨piece_id, orientations⟩
      by_cases hu : used.getD piece_id true = true
      · rw [tryPieces_cons_used hu]
        exact ih
      · have hu2 : used.getD piece_id true = false := by
          cases hval : used.getD piece_id true
          · rfl
          · exact absurd hval hu
        rcases hto : tryOrientations solveRec b used valid_cells piece_id row col orientations
            with ⟨flag, b1, u1⟩
        cases flag with
        | true =>
            rw [tryPieces_cons_true hu2 hto]
            intro hfalse
            cases hfalse
        | false =>
            have hres := tryOrientations_restore hrec b used valid_cells piece_id row col
              orientations hu2 (by rw [hto])
            rw [hto] at hres
            have hb1 : b1 = b := congrArg Prod.fst hres
            have hu1 : u1 = used := congrArg Prod.snd hres
            rw [tryPieces_cons_false hu2 hto, hb1, hu1]
            exact ih

theorem solve_restore (fuel : Nat) :
    ∀ (b : Board) (po : List (List Shape)) (used : List Bool) (valid_cells : List Cell),
    (solve fuel b po used valid_cells).1 = false →
    (solve fuel b po used valid_cells).2 = (b, used) := by
  induction fuel with
  | zero => intro b po used valid_cells _; rfl
  | succ fuel ih =>
      intro b po used valid_cells
      cases hfe : find_first_empty b valid_cells with
      | none =>
          rw [solve_succ_none hfe]
          intro hfalse
          cases hfalse
      | some rc =>
          rw [solve_succ_some hfe]
          exact tryPieces_restore (fun b2 u2 => ih b2 po u2 valid_cells)
            b used valid_cells rc.1 rc.2 po.enum

/-! ### Fuel irrelevance: recursion depth is bounded by the unused pieces -/

theorem count_false_set_true (u : List Bool) (i : Nat) (h : u.getD i true = false) :
    (u.set i true).count false + 1 = u.count false := by
  induction u generalizing i with
  | nil => simp [List.getD] at h
  | cons x xs ih =>
      cases i with
      | zero =>
          have hx : x = false := h
          subst hx
          simp [List.count_cons]
      | succ i =>
          have htail : xs.getD i true = false := h
          have := ih i htail
          simp only [List.set_cons_succ, List.count_cons]
          omega

theorem tryOffsets_congr {s1 s2 : Board → List Bool → Bool × SolveState}
    (hr1 : ∀ b u, (s1 b u).1 = false → (s1 b u).2 = (b, u))
    (b : Board) (used : List Bool) (valid_cells : List Cell) (piece : Shape)
    (piece_id : Nat) (row col : Int) (offsets : List Cell)
    (hused : used.getD piece_id true = false)
    (hagree : ∀ b2, s1 b2 (used.set piece_id true) = s2 b2 (used.set piece_id true)) :
    tryOffsets s1 b used valid_cells piece piece_id row col offsets =
      tryOffsets s2 b used valid_cells piece piece_id row col offsets := by
  induction offsets with
  | nil => rfl
  | cons d rest ih =>
      by_cases hcan : can_place_piece b piece (row - d.1) (col - d.2) valid_cells = true
      · rcases hsr : s1 (place_piece b piece (row - d.1) (col - d.2) (piece_id : Int))
            (used.set piece_id true) with ⟨flag, b2, u2⟩
        have hsr2 : s2 (place_piece b piece (row - d.1) (col - d.2) (piece_id : Int))
            (used.set piece_id true) = (flag, b2, u2) := by
          rw [← hagree]
          exact hsr
        cases flag with
        | true => rw [tryOffsets_cons_true hcan hsr, tryOffsets_cons_true hcan hsr2]
        | false =>
            have hres := hr1 _ _ (by rw [hsr])
            rw [hsr] at hres
            have hb2 : b2 = place_piece b piece (row - d.1) (col - d.2) (piece_id : Int) :=
              congrArg Prod.fst hres
            have hu2 : u2 = used.set piece_id true := congrArg Prod.snd hres
            rw [tryOffsets_cons_false hcan hsr, tryOffsets_cons_false hcan hsr2, hb2, hu2,
              remove_place_restore b piece (row - d.1) (col - d.2) (piece_id : Int)
                valid_cells hcan,
              set_set_cancel used piece_id hused]
            exact ih
      · rw [tryOffsets_cons_skip hcan, tryOffsets_cons_skip hcan]
        exact ih

theorem tryOrientations_congr {s1 s2 : Board → List Bool → Bool × SolveState}
    (hr1 : ∀ b u, (s1 b u).1 = false → (s1 b u).2 = (b, u))
    (b : Board) (used : List Bool) (valid_cells : List Cell)
    (piece_id : Nat) (row col : Int) (orientations : List Shape)
    (hused : used.getD piece_id true = false)
    (hagree : ∀ b2, s1 b2 (used.set piece_id true) = s2 b2 (used.set piece_id true)) :
    tryOrientations s1 b used valid_cells piece_id row col orientations =
      tryOrientations s2 b used valid_cells piece_id row col orientations := by
  induction orientations with
  | nil => rfl
  | cons piece rest ih =>
      rcases hto : tryOffsets s1 b used valid_cells piece piece_id row col piece
          with ⟨flag, b1, u1⟩
      have hto2 : tryOffsets s2 b used valid_cells piece piece_id row col piece
          = (flag, b1, u1) := by
        rw [← tryOffsets_congr hr1 b used valid_cells piece piece_id row col piece hused hagree]
        exact hto
      cases flag with
      | true => rw [tryOrientations_cons_true hto, tryOrientations_cons_true hto2]
      | false =>
          have hres := tryOffsets_restore hr1 b used valid_cells piece piece_id row col
            piece hused (by rw [hto])
          rw [hto] at hres
          have hb1 : b1 = b := congrArg Prod.fst hres
          have hu1 : u1 = used := congrArg Prod.snd hres
          rw [tryOrientations_cons_false hto, tryOrientations_cons_false hto2, hb1, hu1]
          exact ih

theorem tryPieces_congr {s1 s2 : Board → List Bool → Bool × SolveState}
    (hr1 : ∀ b u, (s1 b u).1 = false → (s1 b u).2 = (b, u))
    (b : Board) (used : List Bool) (valid_cells : List Cell) (row col : Int)
    (entries : List (Nat × List Shape))
    (hagree : ∀ b2 pid, used.getD pid true = false →
      s1 b2 (used.set pid true) = s2 b2 (used.set pid true)) :
    tryPieces s1 b used valid_cells row col entries =
      tryPieces s2 b used valid_cells row col entries := by
  induction entries with
  | nil => rfl
  | cons entry rest ih =>
      rcases entry with ⟨piece_id, orientations⟩
      by_cases hu : used.getD piece_id true = true
      · rw [tryPieces_cons_used hu, tryPieces_cons_used hu]
        exact ih
      · have hu2 : used.getD piece_id true = false := by
          cases hval : used.getD piece_id true
          · rfl
          · exact absurd hval hu
        rcases hto : tryOrientations s1 b used valid_cells piece_id row col orientations
            with ⟨flag, b1, u1⟩
        have hto2 : tryOrientations s2 b used valid_cells piece_id row col orientations
            = (flag, b1, u1) := by
          rw [← tryOrientations_congr hr1 b used valid_cells piece_id row col orientations
            hu2 (fun b2 => hagree b2 piece_id hu2)]
          exact hto
        cases flag with
        | true => rw [tryPieces_cons_true hu2 hto, tryPieces_cons_true hu2 hto2]
        | false =>
            have hres := tryOrientations_restore hr1 b used valid_cells piece_id row col
              orientations hu2 (by rw [hto])
            rw [hto] at hres
            have hb1 : b1 = b := congrArg Prod.fst hres
            have hu1 : u1 = used := congrArg Prod.snd hres
            rw [tryPieces_cons_false hu2 hto, tryPieces_cons_false hu2 hto2, hb1, hu1]
            exact ih

theorem solve_fuel_congr (n : Nat) :
    ∀ (m : Nat) (b : Board) (po : List (List Shape)) (used : List Bool)
      (valid_cells : List Cell),
      used.count false < n → used.count false < m →
      solve n b po used valid_cells = solve m b po used valid_cells := by
  induction n with
  | zero =>
      intro m b po used valid_cells hn _
      omega
  | succ n ih =>
      intro m b po used valid_cells hn hm
      cases m with
      | zero => omega
      | succ m =>
          cases hfe : find_first_empty b valid_cells with
          | none => rw [solve_succ_none hfe, solve_succ_none hfe]
          | some rc =>
              rw [solve_succ_some hfe, solve_succ_some hfe]
              apply tryPieces_congr
              · intro b2 u2
                exact solve_restore n b2 po u2 valid_cells
              · intro b2 pid hpid
                have hc := count_false_set_true used pid hpid
                exact ih m b2 po (used.set pid true) valid_cells (by omega) (by omega)

/-! ### The coverage invariant of the search -/

theorem get_all_valid_cells_nodup : get_all_valid_cells.Nodup := by decide

theorem get_all_valid_cells_bounds : ∀ cell ∈ get_all_valid_cells, inBounds cell := by decide

theorem mem_valid_for {cell mp dp : Cell} :
    cell ∈ valid_for mp dp ↔ cell ∈ get_all_valid_cells ∧ cell ≠ mp ∧ cell ≠ dp := by
  unfold valid_for
  rw [List.mem_filter, List.mem_filter]
  simp [and_assoc]

theorem validOk_valid_for (mp dp : Cell) : ValidOk (valid_for mp dp) := by
  constructor
  · exact ((get_all_valid_cells_nodup.filter _).filter _)
  · intro cell hc
    exact get_all_valid_cells_bounds cell (mem_valid_for.mp hc).1

theorem month_pos_not_mem_valid_for (mp dp : Cell) : mp ∉ valid_for mp dp := by
  intro h
  exact (mem_valid_for.mp h).2.1 rfl

theorem day_pos_not_mem_valid_for (mp dp : Cell) : dp ∉ valid_for mp dp := by
  intro h
  exact (mem_valid_for.mp h).2.2 rfl

/-- Static facts about the precomputed orientation table: piece ids are 0..7
and every stored orientation has distinct offsets and its piece's size. -/
theorem po_enum_facts :
    ∀ e ∈ precompute_piece_orientations.enum,
      e.1 < 8 ∧ ∀ o ∈ e.2, o.Nodup ∧ o.length = (PIECES.getD e.1 []).length := by decide

theorem getD_eq_of_lt {α : Type} (l : List α) (i : Nat) (d1 d2 : α) (h : i < l.length) :
    l.getD i d1 = l.getD i d2 := by
  rw [List.getD_eq_getElem?_getD, List.getD_eq_getElem?_getD,
    List.getElem?_eq_getElem h]
  rfl

/-- Counting members of a duplicate-free sublist inside a duplicate-free list. -/
theorem length_filter_mem_eq {ts valid : List Cell} (hts : ts.Nodup)
    (hv : valid.Nodup) (hsub : ∀ x ∈ ts, x ∈ valid) :
    (valid.filter (fun x => decide (x ∈ ts))).length = ts.length := by
  have hperm : (valid.filter (fun x => decide (x ∈ ts))).Perm ts := by
    apply List.perm_of_nodup_nodup_toFinset_eq (hv.filter _) hts
    ext a
    simp only [List.mem_toFinset, List.mem_filter, decide_eq_true_eq]
    exact ⟨fun h => h.2, fun h => ⟨hsub a h, h⟩⟩
  exact hperm.length_eq

theorem shiftCells_length (piece : Shape) (sr sc : Int) :
    (shiftCells piece sr sc).length = piece.length := List.length_map _ _

theorem shiftCells_nodup (piece : Shape) (sr sc : Int) (h : piece.Nodup) :
    (shiftCells piece sr sc).Nodup := by
  refine List.Nodup.map ?_ h
  intro d1 d2 he
  have h1 : sr + d1.1 = sr + d2.1 := congrArg Prod.fst he
  have h2 : sc + d1.2 = sc + d2.2 := congrArg Prod.snd he
  refine Prod.ext ?_ ?_ <;> omega

theorem shiftCells_subset {b : Board} {piece : Shape} {sr sc : Int}
    {valid_cells : List Cell}
    (hcan : can_place_piece b piece sr sc valid_cells = true) :
    ∀ x ∈ shiftCells piece sr sc, x ∈ valid_cells := by
  intro x hx
  rcases List.mem_map.mp hx with ⟨d, hd, hde⟩
  have := ((can_place_piece_spec b piece sr sc valid_cells).mp hcan) d hd
  rw [← hde]
  exact this.1

theorem shiftCells_empty {b : Board} {piece : Shape} {sr sc : Int}
    {valid_cells : List Cell}
    (hcan : can_place_piece b piece sr sc valid_cells = true) :
    ∀ x ∈ shiftCells piece sr sc, boardGet b x.1 x.2 = -1 := by
  intro x hx
  rcases List.mem_map.mp hx with ⟨d, hd, hde⟩
  have := ((can_place_piece_spec b piece sr sc valid_cells).mp hcan) d hd
  rw [← hde]
  exact this.2

/-- Board reads after a feasible placement, at cells inside the board. -/
theorem boardGet_place {b : Board} {piece : Shape} {sr sc : Int} {pid : Int}
    {valid_cells : List Cell} (hv : ValidOk valid_cells)
    (hcan : can_place_piece b piece sr sc valid_cells = true)
    (hlen : b.length = 49) (cell : Cell) (hcell : inBounds cell) :
    boardGet (place_piece b piece sr sc pid) cell.1 cell.2 =
      if cell ∈ shiftCells piece sr sc then pid else boardGet b cell.1 cell.2 := by
  rw [place_piece_eq_writeCells]
  exact boardGet_writeCells_inBounds pid (shiftCells piece sr sc) b cell
    (fun x hx => hv.bounds x (shiftCells_subset hcan x hx)) hcell hlen

/-- Placing a feasible unused piece preserves the invariant. -/
theorem Inv_place {valid_cells : List Cell} {b : Board} {used : List Bool}
    {piece : Shape} {sr sc : Int} {pid : Nat}
    (hv : ValidOk valid_cells) (inv : Inv valid_cells b used)
    (hcan : can_place_piece b piece sr sc valid_cells = true)
    (hpid : pid < 8) (hused : used.getD pid true = false)
    (hnodup : piece.Nodup) (hplen : piece.length = (PIECES.getD pid []).length) :
    Inv valid_cells (place_piece b piece sr sc (pid : Int)) (used.set pid true) := by
  have husedf : used.getD pid false = false := by
    rw [getD_eq_of_lt used pid false true (by rw [inv.hulen]; exact hpid)]
    exact hused
  have hnopid : ∀ cell ∈ valid_cells, boardGet b cell.1 cell.2 ≠ (pid : Int) := by
    have h0 := inv.hcount pid hpid
    rw [husedf] at h0
    simp only [Bool.false_eq_true, if_false] at h0
    · unfold countPid at h0
      have hz : valid_cells.filter
          (fun cell => boardGet b cell.1 cell.2 == (pid : Int)) = [] := by
        cases hfe : valid_cells.filter
            (fun cell => boardGet b cell.1 cell.2 == (pid : Int)) with
        | nil => rfl
        | cons x xs =>
            rw [hfe] at h0
            simp at h0
      intro cell hc hcon
      have : cell ∈ valid_cells.filter
          (fun cell => boardGet b cell.1 cell.2 == (pid : Int)) := by
        rw [List.mem_filter]
        exact ⟨hc, by simp [hcon]⟩
      rw [hz] at this
      cases this
  refine ⟨?_, ?_, ?_, ?_, ?_⟩
  · rw [place_piece_eq_writeCells, writeCells_length]
    exact inv.hlen
  · rw [List.length_set]
    exact inv.hulen
  · intro cell hcell hnv
    rw [boardGet_place hv hcan inv.hlen cell hcell]
    have : cell ∉ shiftCells piece sr sc := fun hc => hnv (shiftCells_subset hcan cell hc)
    rw [if_neg this]
    exact inv.hoff cell hcell hnv
  · intro cell hc
    rw [boardGet_place hv hcan inv.hlen cell (hv.bounds cell hc)]
    by_cases hts : cell ∈ shiftCells piece sr sc
    · rw [if_pos hts]
      refine Or.inr ⟨pid, hpid, ?_, rfl⟩
      rw [getD_set]
      rw [if_pos ⟨rfl, by rw [inv.hulen]; exact hpid⟩]
    · rw [if_neg hts]
      rcases inv.hval cell hc with h | ⟨pid2, hp1, hp2, hp3⟩
      · exact Or.inl h
      · refine Or.inr ⟨pid2, hp1, ?_, hp3⟩
        rw [getD_set]
        by_cases he : pid = pid2 ∧ pid < used.length
        · rw [if_pos he]
        · rw [if_neg he]
          exact hp2
  · intro q hq
    by_cases hqe : q = pid
    · subst hqe
      have hfeq : valid_cells.filter
          (fun cell => boardGet (place_piece b piece sr sc (q : Int)) cell.1 cell.2
            == (q : Int)) =
          valid_cells.filter (fun cell => decide (cell ∈ shiftCells piece sr sc)) := by
        apply List.filter_congr
        intro cell hc
        rw [boardGet_place hv hcan inv.hlen cell (hv.bounds cell hc)]
        by_cases hts : cell ∈ shiftCells piece sr sc
        · simp [hts]
        · simp [hts, hnopid cell hc]
      unfold countPid
      rw [hfeq, length_filter_mem_eq (shiftCells_nodup piece sr sc hnodup) hv.nodup
        (shiftCells_subset hcan), shiftCells_length, hplen]
      have : (used.set q true).getD q false = true := by
        rw [getD_set, if_pos ⟨rfl, by rw [inv.hulen]; exact hq⟩]
      rw [this, if_pos rfl]
    · have hfeq : valid_cells.filter
          (fun cell => boardGet (place_piece b piece sr sc (pid : Int)) cell.1 cell.2
            == (q : Int)) =
          valid_cells.filter (fun cell => boardGet b cell.1 cell.2 == (q : Int)) := by
        apply List.filter_congr
        intro cell hc
        rw [boardGet_place hv hcan inv.hlen cell (hv.bounds cell hc)]
        by_cases hts : cell ∈ shiftCells piece sr sc
        · rw [if_pos hts]
          have h1 : ((pid : Int) == (q : Int)) = false := by
            simp only [beq_eq_false_iff_ne, ne_eq, Nat.cast_inj]
            exact fun hcon => hqe hcon.symm
          have h2 : (boardGet b cell.1 cell.2 == (q : Int)) = false := by
            rw [shiftCells_empty hcan cell hts]
            simp only [beq_eq_false_iff_ne, ne_eq]
            intro hcon
            omega
          rw [h1, h2]
        · rw [if_neg hts]
      unfold countPid
      rw [hfeq]
      have hg : (used.set pid true).getD q false = used.getD q false := by
        rw [getD_set]
        rw [if_neg (fun hcon => hqe hcon.1.symm)]
      rw [hg]
      exact inv.hcount q hq

/-! ### Soundness of the search: success yields a fully covered board -/

theorem inBounds_mem_boardCells (cell : Cell) (h : inBounds cell) : cell ∈ boardCells := by
  obtain ⟨h1, h2, h3, h4⟩ := h
  rcases cell with ⟨r, c⟩
  simp only at h1 h2 h3 h4
  interval_cases r <;> interval_cases c <;> decide

theorem find_first_empty_none_iff {b : Board} {valid_cells : List Cell}
    (hv : ValidOk valid_cells) :
    find_first_empty b valid_cells = none ↔
      ∀ cell ∈ valid_cells, boardGet b cell.1 cell.2 ≠ -1 := by
  unfold find_first_empty
  rw [List.find?_eq_none]
  constructor
  · intro h cell hc hcon
    have hm := inBounds_mem_boardCells cell (hv.bounds cell hc)
    have := h cell hm
    simp only [Bool.and_eq_true, decide_eq_true_eq, beq_iff_eq] at this
    exact this ⟨hc, hcon⟩
  · intro h cell _
    simp only [Bool.and_eq_true, decide_eq_true_eq, beq_iff_eq, not_and]
    intro hc
    exact h cell hc

theorem tryOffsets_sound {solveRec : Board → List Bool → Bool × SolveState}
    {valid_cells : List Cell}
    (hrr : ∀ b u, (solveRec b u).1 = false → (solveRec b u).2 = (b, u))
    (hrs : ∀ b u s, Inv valid_cells b u → solveRec b u = (true, s) →
      Inv valid_cells s.1 s.2 ∧ find_first_empty s.1 valid_cells = none)
    (hv : ValidOk valid_cells)
    (b : Board) (used : List Bool) (piece : Shape) (piece_id : Nat) (row col : Int)
    (offsets : List Cell)
    (hpid : piece_id < 8) (hused : used.getD piece_id true = false)
    (hnodup : piece.Nodup) (hplen : piece.length = (PIECES.getD piece_id []).length)
    (inv : Inv valid_cells b used) :
    ∀ s, tryOffsets solveRec b used valid_cells piece piece_id row col offsets = (true, s) →
      Inv valid_cells s.1 s.2 ∧ find_first_empty s.1 valid_cells = none := by
  induction offsets with
  | nil =>
      intro s hs
      rw [tryOffsets_nil] at hs
      exact absurd (congrArg Prod.fst hs) (by simp)
  | cons d rest ih =>
      intro s hs
      by_cases hcan : can_place_piece b piece (row - d.1) (col - d.2) valid_cells = true
      · rcases hsr : solveRec (place_piece b piece (row - d.1) (col - d.2) (piece_id : Int))
            (used.set piece_id true) with ⟨flag, b2, u2⟩
        cases flag with
        | true =>
            rw [tryOffsets_cons_true hcan hsr] at hs
            have hseq : (b2, u2) = s := congrArg Prod.snd hs
            rw [← hseq]
            exact hrs _ _ _ (Inv_place hv inv hcan hpid hused hnodup hplen) hsr
        | false =>
            have hres := hrr _ _ (by rw [hsr])
            rw [hsr] at hres
            have hb2 : b2 = place_piece b piece (row - d.1) (col - d.2) (piece_id : Int) :=
              congrArg Prod.fst hres
            have hu2 : u2 = used.set piece_id true := congrArg Prod.snd hres
            rw [tryOffsets_cons_false hcan hsr, hb2, hu2,
              remove_place_restore b piece (row - d.1) (col - d.2) (piece_id : Int)
                valid_cells hcan,
              set_set_cancel used piece_id hused] at hs
            exact ih s hs
      · rw [tryOffsets_cons_skip hcan] at hs
        exact ih s hs

theorem tryOrientations_sound {solveRec : Board → List Bool → Bool × SolveState}
    {valid_cells : List Cell}
    (hrr : ∀ b u, (solveRec b u).1 = false → (solveRec b u).2 = (b, u))
    (hrs : ∀ b u s, Inv valid_cells b u → solveRec b u = (true, s) →
      Inv valid_cells s.1 s.2 ∧ find_first_empty s.1 valid_cells = none)
    (hv : ValidOk valid_cells)
    (b : Board) (used : List Bool) (piece_id : Nat) (row col : Int)
    (orientations : List Shape)
    (hpid : piece_id < 8) (hused : used.getD piece_id true = false)
    (hor : ∀ o ∈ orientations, o.Nodup ∧ o.length = (PIECES.getD piece_id []).length)
    (inv : Inv valid_cells b used) :
    ∀ s, tryOrientations solveRec b used valid_cells piece_id row col orientations
      = (true, s) →
      Inv valid_cells s.1 s.2 ∧ find_first_empty s.1 valid_cells = none := by
  induction orientations with
  | nil =>
      intro s hs
      rw [tryOrientations_nil] at hs
      exact absurd (congrArg Prod.fst hs) (by simp)
  | cons piece rest ih =>
      intro s hs
      rcases hto : tryOffsets solveRec b used valid_cells piece piece_id row col piece
          with ⟨flag, b1, u1⟩
      cases flag with
      | true =>
          rw [tryOrientations_cons_true hto] at hs
          have hseq : (b1, u1) = s := congrArg Prod.snd hs
          rw [← hseq]
          exact tryOffsets_sound hrr hrs hv b used piece piece_id row col piece hpid hused
            (hor piece (List.mem_cons_self piece rest)).1
            (hor piece (List.mem_cons_self piece rest)).2 inv _ hto
      | false =>
          have hres := tryOffsets_restore hrr b used valid_cells piece piece_id row col
            piece hused (by rw [hto])
          rw [hto] at hres
          have hb1 : b1 = b := congrArg Prod.fst hres
          have hu1 : u1 = used := congrArg Prod.snd hres
          rw [tryOrientations_cons_false hto, hb1, hu1] at hs
          exact ih (fun o ho => hor o (List.mem_cons_of_mem piece ho)) s hs

theorem tryPieces_sound {solveRec : Board → List Bool → Bool × SolveState}
    {valid_cells : List Cell}
    (hrr : ∀ b u, (solveRec b u).1 = false → (solveRec b u).2 = (b, u))
    (hrs : ∀ b u s, Inv valid_cells b u → solveRec b u = (true, s) →
      Inv valid_cells s.1 s.2 ∧ find_first_empty s.1 valid_cells = none)
    (hv : ValidOk valid_cells)
    (b : Board) (used : List Bool) (row col : Int)
    (entries : List (Nat × List Shape))
    (hent : ∀ e ∈ entries, e.1 < 8 ∧ ∀ o ∈ e.2, o.Nodup ∧
      o.length = (PIECES.getD e.1 []).length)
    (inv : Inv valid_cells b used) :
    ∀ s, tryPieces solveRec b used valid_cells row col entries = (true, s) →
      Inv valid_cells s.1 s.2 ∧ find_first_empty s.1 valid_cells = none := by
  induction entries with
  | nil =>
      intro s hs
      rw [tryPieces_nil] at hs
      exact absurd (congrArg Prod.fst hs) (by simp)
  | cons entry rest ih =>
      intro s hs
      rcases entry with ⟨piece_id, orientations⟩
      by_cases hu : used.getD piece_id true = true
      · rw [tryPieces_cons_used hu] at hs
        exact ih (fun e he => hent e (List.mem_cons_of_mem _ he)) s hs
      · have hu2 : used.getD piece_id true = false := by
          cases hval : used.getD piece_id true
          · rfl
          · exact absurd hval hu
        have hfacts := hent (piece_id, orientations)
          (List.mem_cons_self (piece_id, orientations) rest)
        rcases hto : tryOrientations solveRec b used valid_cells piece_id row col
            orientations with ⟨flag, b1, u1⟩
        cases flag with
        | true =>
            rw [tryPieces_cons_true hu2 hto] at hs
            have hseq : (b1, u1) = s := congrArg Prod.snd hs
            rw [← hseq]
            exact tryOrientations_sound hrr hrs hv b used piece_id row col orientations
              hfacts.1 hu2 hfacts.2 inv _ hto
        | false =>
            have hres := tryOrientations_restore hrr b used valid_cells piece_id row col
              orientations hu2 (by rw [hto])
            rw [hto] at hres
            have hb1 : b1 = b := congrArg Prod.fst hres
            have hu1 : u1 = used := congrArg Prod.snd hres
            rw [tryPieces_cons_false hu2 hto, hb1, hu1] at hs
            exact ih (fun e he => hent e (List.mem_cons_of_mem _ he)) s hs

theorem solve_sound {valid_cells : List Cell} (hv : ValidOk valid_cells) :
    ∀ (fuel : Nat) (b : Board) (used : List Bool) (s : SolveState),
      Inv valid_cells b used →
      solve fuel b precompute_piece_orientations used valid_cells = (true, s) →
      Inv valid_cells s.1 s.2 ∧ find_first_empty s.1 valid_cells = none := by
  intro fuel
  induction fuel with
  | zero =>
      intro b used s _ hs
      rw [solve_zero] at hs
      exact absurd (congrArg Prod.fst hs) (by simp)
  | succ fuel ih =>
      intro b used s inv hs
      cases hfe : find_first_empty b valid_cells with
      | none =>
          rw [solve_succ_none hfe] at hs
          have hseq : (b, used) = s := congrArg Prod.snd hs
          rw [← hseq]
          exact ⟨inv, hfe⟩
      | some rc =>
          rw [solve_succ_some hfe] at hs
          exact tryPieces_sound
            (fun b2 u2 => solve_restore fuel b2 precompute_piece_orientations u2 valid_cells)
            (fun b2 u2 s2 inv2 hs2 => ih b2 u2 s2 inv2 hs2)
            hv b used rc.1 rc.2 precompute_piece_orientations.enum po_enum_facts inv s hs

/-! ### Deriving the coverage facts at a successful exit -/

theorem sum_map_add {α : Type} (l : List α) (f g : α → Nat) :
    (l.map (fun x => f x + g x)).sum = (l.map f).sum + (l.map g).sum := by
  induction l with
  | nil => rfl
  | cons x xs ih =>
      simp only [List.map_cons, List.sum_cons, ih]
      omega

theorem indicator_sum (v : Int) (p0 : Nat) (hp : p0 < 8) (hv : v = (p0 : Int)) :
    ((List.range 8).map (fun p : Nat => if v == (p : Int) then 1 else 0)).sum = 1 := by
  subst hv
  interval_cases p0 <;> decide

theorem sum_countPid (b : Board) (l : List Cell)
    (hf : ∀ x ∈ l, ∃ p : Nat, p < 8 ∧ boardGet b x.1 x.2 = (p : Int)) :
    ((List.range 8).map (fun p : Nat => countPid b l p)).sum = l.length := by
  induction l with
  | nil => simp [countPid]
  | cons x xs ih =>
      rcases hf x (List.mem_cons_self x xs) with ⟨p0, hp0, hfx⟩
      have hstep : ∀ p : Nat,
          countPid b (x :: xs) p =
          (if boardGet b x.1 x.2 == (p : Int) then 1 else 0) + countPid b xs p := by
        intro p
        unfold countPid
        rw [List.filter_cons]
        by_cases hc : (boardGet b x.1 x.2 == (p : Int)) = true
        · simp [hc, Nat.add_comm]
        · simp [hc]
      have hmap : (List.range 8).map (fun p : Nat => countPid b (x :: xs) p)
          = (List.range 8).map (fun p : Nat =>
              (if boardGet b x.1 x.2 == (p : Int) then 1 else 0) + countPid b xs p) :=
        List.map_congr_left (fun p _ => hstep p)
      rw [hmap, sum_map_add, indicator_sum (boardGet b x.1 x.2) p0 hp0 hfx,
        ih (fun y hy => hf y (List.mem_cons_of_mem x hy)), List.length_cons]
      omega

theorem all_used_of_success {valid_cells : List Cell} {b : Board} {used : List Bool}
    (hv : ValidOk valid_cells) (inv : Inv valid_cells b used)
    (hnone : find_first_empty b valid_cells = none) (hlen41 : valid_cells.length = 41) :
    ∀ pid : Nat, pid < 8 → used.getD pid false = true := by
  intro q hq
  by_contra hcon
  have hqf : used.getD q false = false := by
    cases h : used.getD q false
    · rfl
    · exact absurd h hcon
  have hassigned : ∀ cell ∈ valid_cells,
      ∃ p : Nat, p < 8 ∧ boardGet b cell.1 cell.2 = (p : Int) := by
    intro cell hc
    rcases inv.hval cell hc with h | ⟨p, h1, _, h3⟩
    · exact absurd h ((find_first_empty_none_iff hv).mp hnone cell hc)
    · exact ⟨p, h1, h3⟩
  have hsum := sum_countPid b valid_cells hassigned
  have hcounts : (List.range 8).map (fun p : Nat => countPid b valid_cells p)
      = (List.range 8).map
        (fun p : Nat => if used.getD p false = true then (PIECES.getD p []).length else 0) := by
    apply List.map_congr_left
    intro p hp
    rw [List.mem_range] at hp
    exact inv.hcount p hp
  rw [hcounts, hlen41] at hsum
  have hle : ((List.range 8).map
        (fun p : Nat => if used.getD p false = true then (PIECES.getD p []).length else 0)).sum
      ≤ ((List.range 8).map
        (fun p : Nat => if p = q then 0 else (PIECES.getD p []).length)).sum := by
    apply List.sum_le_sum
    intro p _
    by_cases hpq : p = q
    · subst hpq
      rw [hqf, if_pos rfl]
      simp only [Bool.false_eq_true, if_false]
      omega
    · rw [if_neg hpq]
      by_cases hu : used.getD p false = true
      · rw [if_pos hu]
      · rw [if_neg hu]
        omega
  have hlt : ((List.range 8).map
      (fun p : Nat => if p = q then 0 else (PIECES.getD p []).length)).sum < 41 := by
    interval_cases q <;> decide
  omega

theorem getD_replicate_self {α : Type} (a : α) (n i : Nat) :
    (List.replicate n a).getD i a = a := by
  induction n generalizing i with
  | zero => rfl
  | succ n ih =>
      cases i with
      | zero => rfl
      | succ i => exact ih i

theorem Inv_initial (mp dp : Cell) :
    Inv (valid_for mp dp) (initial_board (valid_for mp dp))
      (List.replicate PIECES.length false) := by
  have hv := validOk_valid_for mp dp
  have hib : initial_board (valid_for mp dp)
      = writeCells (-1) (valid_for mp dp) (List.replicate 49 (-2)) := rfl
  have hrl : (List.replicate 49 (-2 : Int)).length = 49 := List.length_replicate 49 (-2)
  refine ⟨?_, ?_, ?_, ?_, ?_⟩
  · rw [hib, writeCells_length]
    exact hrl
  · rw [List.length_replicate]
    rfl
  · intro cell hcell hnv
    rw [hib, boardGet_writeCells_notMem (-1) _ _ cell hv.bounds hcell hnv]
    exact getD_replicate_self (-2) 49 _
  · intro cell hc
    left
    rw [hib, boardGet_writeCells_inBounds (-1) _ _ cell hv.bounds (hv.bounds cell hc) hrl,
      if_pos hc]
  · intro pid hpid
    have hg : (List.replicate PIECES.length false).getD pid false = false :=
      getD_replicate_self false PIECES.length pid
    rw [hg]
    simp only [Bool.false_eq_true, if_false]
    unfold countPid
    have hfe : (valid_for mp dp).filter
        (fun cell => boardGet (initial_board (valid_for mp dp)) cell.1 cell.2
          == (pid : Int)) = (valid_for mp dp).filter (fun _ => false) := by
      apply List.filter_congr
      intro cell hc
      rw [hib, boardGet_writeCells_inBounds (-1) _ _ cell hv.bounds (hv.bounds cell hc) hrl,
        if_pos hc]
      simp only [beq_eq_false_iff_ne, ne_eq]
      intro hcon
      omega
    rw [hfe, List.filter_false]
    rfl

theorem solve_core_some {mp dp : Cell} {b : Board} (h : solve_core mp dp = some b) :
    ∃ u, solve 9 (initial_board (valid_for mp dp)) precompute_piece_orientations
      (List.replicate PIECES.length false) (valid_for mp dp) = (true, b, u) := by
  simp only [solve_core] at h
  rcases hres : solve 9 (initial_board (valid_for mp dp)) precompute_piece_orientations
      (List.replicate PIECES.length false) (valid_for mp dp) with ⟨flag, b2, u2⟩
  rw [hres] at h
  cases flag with
  | false => cases h
  | true =>
      simp only [Option.some.injEq] at h
      subst h
      exact ⟨u2, rfl⟩

/-! ### Date lookups land on valid month/day cells -/

theorem lookup_mem {α β : Type} [BEq α] [LawfulBEq α] (a : α) (b : β) :
    ∀ l : List (α × β), l.lookup a = some b → (a, b) ∈ l := by
  intro l
  induction l with
  | nil => intro h; cases h
  | cons x xs ih =>
      intro h
      rcases x with ⟨k, v⟩
      simp only [List.lookup] at h
      cases hak : (a == k) with
      | true =>
          rw [hak] at h
          simp only [Option.some.injEq] at h
          have ha : a = k := eq_of_beq hak
          rw [List.mem_cons]
          exact Or.inl (by rw [ha, h])
      | false =>
          rw [hak] at h
          exact List.mem_cons_of_mem _ (ih h)

theorem month_pos_mem {month : Nat} {mp : Cell} (h : month_pos month = some mp) :
    mp ∈ MONTHS.map Prod.fst := by
  unfold month_pos at h
  cases hg : pyGet MONTH_NAMES ((month : Int) - 1) with
  | none => rw [hg] at h; cases h
  | some name =>
      rw [hg] at h
      have hm := lookup_mem name mp MONTH_TO_POS h
      unfold MONTH_TO_POS at hm
      rcases List.mem_map.mp hm with ⟨pr, hpr, he⟩
      have hfst : pr.1 = mp := congrArg Prod.snd he
      rw [← hfst]
      exact List.mem_map_of_mem Prod.fst hpr

theorem day_pos_mem {d : Nat} {dp : Cell} (h : day_pos d = some dp) :
    dp ∈ DAYS.map Prod.fst := by
  unfold day_pos at h
  have hm := lookup_mem d dp DAY_TO_POS h
  unfold DAY_TO_POS at hm
  rcases List.mem_map.mp hm with ⟨pr, hpr, he⟩
  have hfst : pr.1 = dp := congrArg Prod.snd he
  rw [← hfst]
  exact List.mem_map_of_mem Prod.fst hpr

set_option maxRecDepth 10000 in
theorem month_positions_valid : ∀ mp ∈ MONTHS.map Prod.fst, mp ∈ get_all_valid_cells := by
  decide

set_option maxRecDepth 10000 in
theorem day_positions_valid : ∀ dp ∈ DAYS.map Prod.fst, dp ∈ get_all_valid_cells := by
  decide

set_option maxRecDepth 10000 in
theorem month_day_positions_ne :
    ∀ mp ∈ MONTHS.map Prod.fst, ∀ dp ∈ DAYS.map Prod.fst, mp ≠ dp := by decide

set_option maxRecDepth 10000 in
theorem get_all_valid_cells_length : get_all_valid_cells.length = 43 := by decide

theorem length_filter_ne {l : List Cell} (a : Cell) (hnd : l.Nodup) (ha : a ∈ l) :
    (l.filter (fun x => decide (x ≠ a))).length + 1 = l.length := by
  induction l with
  | nil => cases ha
  | cons x xs ih =>
      rw [List.filter_cons]
      rcases List.mem_cons.mp ha with he | hm
      · subst he
        have hda : (decide (a ≠ a)) = false := by simp
        rw [hda]
        simp only [Bool.false_eq_true, if_false]
        have hnot : a ∉ xs := (List.nodup_cons.mp hnd).1
        have hself : xs.filter (fun x => decide (x ≠ a)) = xs := by
          apply List.filter_eq_self.mpr
          intro y hy
          simp only [decide_eq_true_eq]
          intro hcon
          exact hnot (hcon ▸ hy)
        rw [hself, List.length_cons]
      · have hxa : x ≠ a := by
          intro hcon
          exact (List.nodup_cons.mp hnd).1 (hcon ▸ hm)
        have hdx : (decide (x ≠ a)) = true := by simp [hxa]
        rw [hdx]
        simp only [if_true]
        rw [List.length_cons, List.length_cons]
        have := ih (List.nodup_cons.mp hnd).2 hm
        omega

theorem valid_for_length {mp dp : Cell} (hm : mp ∈ get_all_valid_cells)
    (hd : dp ∈ get_all_valid_cells) (hne : mp ≠ dp) :
    (valid_for mp dp).length = 41 := by
  unfold valid_for
  have h1 := length_filter_ne mp get_all_valid_cells_nodup hm
  have hd1 : dp ∈ get_all_valid_cells.filter (fun cell => decide (cell ≠ mp)) := by
    rw [List.mem_filter]
    refine ⟨hd, ?_⟩
    simp only [decide_eq_true_eq]
    exact fun hcon => hne hcon.symm
  have h2 := length_filter_ne dp (get_all_valid_cells_nodup.filter _) hd1
  rw [get_all_valid_cells_length] at h1
  omega

/-! ### Four rotations are the identity on normalized shapes -/

theorem foldl_max_map_sub (l : List Int) (x a : Int) :
    (l.map (fun y => y - a)).foldl max (x - a) = l.foldl max x - a := by
  induction l generalizing x with
  | nil => rfl
  | cons y ys ih =>
      simp only [List.map_cons, List.foldl_cons]
      rw [max_sub_sub_right]
      exact ih (max x y)

theorem listMax_map_sub (l : List Int) (a : Int) (h : l ≠ []) :
    listMax (l.map (fun y => y - a)) = listMax l - a := by
  cases l with
  | nil => exact absurd rfl h
  | cons y ys =>
      simp only [List.map_cons, listMax]
      exact foldl_max_map_sub ys y a

theorem foldl_min_map_const_sub (l : List Int) (x a : Int) :
    (l.map (fun y => a - y)).foldl min (a - x) = a - l.foldl max x := by
  induction l generalizing x with
  | nil => rfl
  | cons y ys ih =>
      simp only [List.map_cons, List.foldl_cons]
      rw [min_sub_sub_left]
      exact ih (max x y)

theorem listMin_map_const_sub (l : List Int) (a : Int) (h : l ≠ []) :
    listMin (l.map (fun y => a - y)) = a - listMax l := by
  cases l with
  | nil => exact absurd rfl h
  | cons y ys =>
      simp only [List.map_cons, listMin, listMax]
      exact foldl_min_map_const_sub ys y a

theorem foldl_max_map_const_sub (l : List Int) (x a : Int) :
    (l.map (fun y => a - y)).foldl max (a - x) = a - l.foldl min x := by
  induction l generalizing x with
  | nil => rfl
  | cons y ys ih =>
      simp only [List.map_cons, List.foldl_cons]
      rw [max_sub_sub_left]
      exact ih (min x y)

theorem listMax_map_const_sub (l : List Int) (a : Int) (h : l ≠ []) :
    listMax (l.map (fun y => a - y)) = a - listMin l := by
  cases l with
  | nil => exact absurd rfl h
  | cons y ys =>
      simp only [List.map_cons, listMax, listMin]
      exact foldl_max_map_const_sub ys y a

theorem rotate_piece_eq (s : Shape) (h : s ≠ []) :
    rotate_piece s = s.map (fun p =>
      (p.2 - listMin (s.map Prod.snd), listMax (s.map Prod.fst) - p.1)) := by
  have hne1 : s.map Prod.fst ≠ [] := by simpa using h
  have hne2 : s.map Prod.snd ≠ [] := by simpa using h
  have e1 : (s.map (fun p : Cell => (p.2, -p.1))).map Prod.fst = s.map Prod.snd := by
    rw [List.map_map]
    rfl
  have e2 : (s.map (fun p : Cell => (p.2, -p.1))).map Prod.snd
      = (s.map Prod.fst).map (fun y => (0 : Int) - y) := by
    rw [List.map_map, List.map_map]
    apply List.map_congr_left
    intro p _
    simp only [Function.comp]
    omega
  simp only [rotate_piece]
  rw [e1, e2, listMin_map_const_sub (s.map Prod.fst) 0 hne1, List.map_map]
  apply List.map_congr_left
  intro p _
  simp only [Function.comp]
  refine Prod.ext rfl ?_
  simp only
  omega

theorem rotate_rotate_eq (s : Shape) (h : s ≠ []) :
    rotate_piece (rotate_piece s) = s.map (fun p =>
      (listMax (s.map Prod.fst) - p.1, listMax (s.map Prod.snd) - p.2)) := by
  have hne1 : s.map Prod.fst ≠ [] := by simpa using h
  have hne2 : s.map Prod.snd ≠ [] := by simpa using h
  have hmapne : s.map (fun p : Cell =>
      (p.2 - listMin (s.map Prod.snd), listMax (s.map Prod.fst) - p.1)) ≠ [] := by
    simpa using h
  rw [rotate_piece_eq s h, rotate_piece_eq _ hmapne]
  have e1 : (s.map (fun p : Cell =>
      (p.2 - listMin (s.map Prod.snd), listMax (s.map Prod.fst) - p.1))).map Prod.snd
      = (s.map Prod.fst).map (fun y => listMax (s.map Prod.fst) - y) := by
    rw [List.map_map, List.map_map]
    apply List.map_congr_left
    intro p _
    rfl
  have e2 : (s.map (fun p : Cell =>
      (p.2 - listMin (s.map Prod.snd), listMax (s.map Prod.fst) - p.1))).map Prod.fst
      = (s.map Prod.snd).map (fun y => y - listMin (s.map Prod.snd)) := by
    rw [List.map_map, List.map_map]
    apply List.map_congr_left
    intro p _
    rfl
  rw [e1, e2, listMin_map_const_sub (s.map Prod.fst) _ hne1,
    listMax_map_sub (s.map Prod.snd) _ hne2, List.map_map]
  apply List.map_congr_left
  intro p _
  simp only [Function.comp]
  refine Prod.ext ?_ ?_
  · simp only
    omega
  · simp only
    omega

theorem rotate_four_eq (s : Shape) (hne : s ≠ [])
    (hr : listMin (s.map Prod.fst) = 0) (hc : listMin (s.map Prod.snd) = 0) :
    rotate_piece (rotate_piece (rotate_piece (rotate_piece s))) = s := by
  have h2 := rotate_rotate_eq s hne
  have hmapne : s.map (fun p : Cell =>
      (listMax (s.map Prod.fst) - p.1, listMax (s.map Prod.snd) - p.2)) ≠ [] := by
    simpa using hne
  have hne1 : s.map Prod.fst ≠ [] := by simpa using hne
  have hne2 : s.map Prod.snd ≠ [] := by simpa using hne
  rw [h2, rotate_rotate_eq _ hmapne]
  have e1 : (s.map (fun p : Cell =>
      (listMax (s.map Prod.fst) - p.1, listMax (s.map Prod.snd) - p.2))).map Prod.fst
      = (s.map Prod.fst).map (fun y => listMax (s.map Prod.fst) - y) := by
    rw [List.map_map, List.map_map]
    apply List.map_congr_left
    intro p _
    rfl
  have e2 : (s.map (fun p : Cell =>
      (listMax (s.map Prod.fst) - p.1, listMax (s.map Prod.snd) - p.2))).map Prod.snd
      = (s.map Prod.snd).map (fun y => listMax (s.map Prod.snd) - y) := by
    rw [List.map_map, List.map_map]
    apply List.map_congr_left
    intro p _
    rfl
  rw [e1, e2, listMax_map_const_sub (s.map Prod.fst) _ hne1,
    listMax_map_const_sub (s.map Prod.snd) _ hne2, hr, hc, List.map_map]
  have : ∀ p ∈ s, ((fun q : Cell =>
      (listMax (s.map Prod.fst) - 0 - q.1, listMax (s.map Prod.snd) - 0 - q.2)) ∘
      (fun p : Cell =>
        (listMax (s.map Prod.fst) - p.1, listMax (s.map Prod.snd) - p.2))) p = p := by
    intro p _
    simp only [Function.comp]
    refine Prod.ext ?_ ?_
    · simp only
      omega
    · simp only
      omega
  rw [List.map_congr_left this]
  simp

/-! ### Completeness: if an exact cover exists, the search succeeds -/

theorem find_first_empty_some {b : Board} {valid_cells : List Cell} {rc : Cell}
    (h : find_first_empty b valid_cells = some rc) :
    rc ∈ valid_cells ∧ boardGet b rc.1 rc.2 = -1 := by
  unfold find_first_empty at h
  have hp := List.find?_some h
  simp only [Bool.and_eq_true, decide_eq_true_eq, beq_iff_eq] at hp
  exact hp

theorem mem_enum_of_lt {α : Type} (l : List α) (i : Nat) (dflt : α) (h : i < l.length) :
    (i, l.getD i dflt) ∈ l.enum := by
  rw [List.mem_enum_iff_getElem?, List.getD_eq_getElem?_getD, List.getElem?_eq_getElem h]
  rfl

theorem tryOffsets_false {solveRec : Board → List Bool → Bool × SolveState}
    (hrr : ∀ b u, (solveRec b u).1 = false → (solveRec b u).2 = (b, u))
    (b : Board) (used : List Bool) (valid_cells : List Cell) (piece : Shape)
    (piece_id : Nat) (row col : Int) (offsets : List Cell)
    (hused : used.getD piece_id true = false)
    (hfalse : (tryOffsets solveRec b used valid_cells piece piece_id row col offsets).1
      = false) :
    ∀ d ∈ offsets, can_place_piece b piece (row - d.1) (col - d.2) valid_cells = true →
      (solveRec (place_piece b piece (row - d.1) (col - d.2) (piece_id : Int))
        (used.set piece_id true)).1 = false := by
  induction offsets with
  | nil => intro d hd; cases hd
  | cons d0 rest ih =>
      intro d hd hcan
      rcases List.mem_cons.mp hd with he | hm
      · subst he
        rcases hsr : solveRec (place_piece b piece (row - d.1) (col - d.2) (piece_id : Int))
            (used.set piece_id true) with ⟨flag, b2, u2⟩
        cases flag with
        | true =>
            rw [tryOffsets_cons_true hcan hsr] at hfalse
            cases hfalse
        | false => rfl
      · by_cases hcan0 : can_place_piece b piece (row - d0.1) (col - d0.2) valid_cells = true
        · rcases hsr : solveRec
              (place_piece b piece (row - d0.1) (col - d0.2) (piece_id : Int))
              (used.set piece_id true) with ⟨flag, b2, u2⟩
          cases flag with
          | true =>
              rw [tryOffsets_cons_true hcan0 hsr] at hfalse
              cases hfalse
          | false =>
              have hres := hrr _ _ (by rw [hsr])
              rw [hsr] at hres
              have hb2 : b2 = place_piece b piece (row - d0.1) (col - d0.2) (piece_id : Int) :=
                congrArg Prod.fst hres
              have hu2 : u2 = used.set piece_id true := congrArg Prod.snd hres
              rw [tryOffsets_cons_false hcan0 hsr, hb2, hu2,
                remove_place_restore b piece (row - d0.1) (col - d0.2) (piece_id : Int)
                  valid_cells hcan0,
                set_set_cancel used piece_id hused] at hfalse
              exact ih hfalse d hm hcan
        · rw [tryOffsets_cons_skip hcan0] at hfalse
          exact ih hfalse d hm hcan

theorem tryOrientations_false {solveRec : Board → List Bool → Bool × SolveState}
    (hrr : ∀ b u, (solveRec b u).1 = false → (solveRec b u).2 = (b, u))
    (b : Board) (used : List Bool) (valid_cells : List Cell)
    (piece_id : Nat) (row col : Int) (orientations : List Shape)
    (hused : used.getD piece_id true = false)
    (hfalse : (tryOrientations solveRec b used valid_cells piece_id row col orientations).1
      = false) :
    ∀ o ∈ orientations, ∀ d ∈ o,
      can_place_piece b o (row - d.1) (col - d.2) valid_cells = true →
      (solveRec (place_piece b o (row - d.1) (col - d.2) (piece_id : Int))
        (used.set piece_id true)).1 = false := by
  induction orientations with
  | nil => intro o ho; cases ho
  | cons o0 rest ih =>
      intro o ho d hd hcan
      rcases hto : tryOffsets solveRec b used valid_cells o0 piece_id row col o0
          with ⟨flag, b1, u1⟩
      cases flag with
      | true =>
          rw [tryOrientations_cons_true hto] at hfalse
          cases hfalse
      | false =>
          have hres := tryOffsets_restore hrr b used valid_cells o0 piece_id row col
            o0 hused (by rw [hto])
          rw [hto] at hres
          have hb1 : b1 = b := congrArg Prod.fst hres
          have hu1 : u1 = used := congrArg Prod.snd hres
          rcases List.mem_cons.mp ho with he | hm
          · subst he
            exact tryOffsets_false hrr b used valid_cells o piece_id row col o hused
              (by rw [hto]) d hd hcan
          · rw [tryOrientations_cons_false hto, hb1, hu1] at hfalse
            exact ih hfalse o hm d hd hcan

theorem tryPieces_false {solveRec : Board → List Bool → Bool × SolveState}
    (hrr : ∀ b u, (solveRec b u).1 = false → (solveRec b u).2 = (b, u))
    (b : Board) (used : List Bool) (valid_cells : List Cell) (row col : Int)
    (entries : List (Nat × List Shape))
    (hfalse : (tryPieces solveRec b used valid_cells row col entries).1 = false) :
    ∀ e ∈ entries, used.getD e.1 true = false → ∀ o ∈ e.2, ∀ d ∈ o,
      can_place_piece b o (row - d.1) (col - d.2) valid_cells = true →
      (solveRec (place_piece b o (row - d.1) (col - d.2) (e.1 : Int))
        (used.set e.1 true)).1 = false := by
  induction entries with
  | nil => intro e he; cases he
  | cons e0 rest ih =>
      intro e he hefalse o ho d hd hcan
      rcases e0 with ⟨piece_id, orientations⟩
      by_cases hu : used.getD piece_id true = true
      · rw [tryPieces_cons_used hu] at hfalse
        rcases List.mem_cons.mp he with hee | hm
        · rw [hee] at hefalse
          rw [hefalse] at hu
          cases hu
        · exact ih hfalse e hm hefalse o ho d hd hcan
      · have hu2 : used.getD piece_id true = false := by
          cases hval : used.getD piece_id true
          · rfl
          · exact absurd hval hu
        rcases hto : tryOrientations solveRec b used valid_cells piece_id row col
            orientations with ⟨flag, b1, u1⟩
        cases flag with
        | true =>
            rw [tryPieces_cons_true hu2 hto] at hfalse
            cases hfalse
        | false =>
            have hres := tryOrientations_restore hrr b used valid_cells piece_id row col
              orientations hu2 (by rw [hto])
            rw [hto] at hres
            have hb1 : b1 = b := congrArg Prod.fst hres
            have hu1 : u1 = used := congrArg Prod.snd hres
            rcases List.mem_cons.mp he with hee | hm
            · rw [hee]
              exact tryOrientations_false hrr b used valid_cells piece_id row col
                orientations hu2 (by rw [hto]) o (by rw [hee] at ho; exact ho) d hd hcan
            · rw [tryPieces_cons_false hu2 hto, hb1, hu1] at hfalse
              exact ih hfalse e hm hefalse o ho d hd hcan

theorem ExtendsTo_place {valid_cells : List Cell} (hv : ValidOk valid_cells)
    {b : Board} {used : List Bool} {l1 l2 : List Placement} {q : Placement}
    (hlen : b.length = 49)
    (hext : ExtendsTo b used valid_cells (l1 ++ q :: l2))
    (hcan : can_place_piece b q.2.1 q.2.2.1 q.2.2.2 valid_cells = true) :
    ExtendsTo (place_piece b q.2.1 q.2.2.1 q.2.2.2 (q.1 : Int)) (used.set q.1 true)
      valid_cells (l1 ++ l2) := by
  have hsub : List.Sublist (l1 ++ l2) (l1 ++ q :: l2) :=
    (List.sublist_cons_self q l2).append_left l1
  have hid_ne : ∀ r ∈ l1 ++ l2, r.1 ≠ q.1 := by
    intro r hr hcon
    have hmap : (l1 ++ q :: l2).map (fun x => x.1)
        = l1.map (fun x => x.1) ++ q.1 :: l2.map (fun x => x.1) := by
      rw [List.map_append, List.map_cons]
    have hnodup := hext.hids
    rw [hmap] at hnodup
    rcases List.mem_append.mp hr with h1 | h2
    · have hdisj := (List.nodup_append.mp hnodup).2.2
      exact hdisj (hcon ▸ List.mem_map_of_mem (fun x => x.1) h1)
        (List.mem_cons_self _ _)
    · have h_cons := (List.nodup_append.mp hnodup).2.1
      exact (List.nodup_cons.mp h_cons).1 (hcon ▸ List.mem_map_of_mem (fun x => x.1) h2)
  have hcov : (l1 ++ q :: l2).flatMap placementCells
      = l1.flatMap placementCells ++ (placementCells q ++ l2.flatMap placementCells) := by
    rw [List.flatMap_append, List.flatMap_cons]
  have hcovsub : List.Sublist ((l1 ++ l2).flatMap placementCells)
      ((l1 ++ q :: l2).flatMap placementCells) := by
    rw [hcov, List.flatMap_append l1 l2 placementCells]
    exact (List.sublist_append_right (placementCells q)
      (l2.flatMap placementCells)).append_left _
  have hdisj_q : ∀ cell ∈ (l1 ++ l2).flatMap placementCells,
      cell ∉ placementCells q := by
    intro cell hcell hin
    have hnd := hext.hcells
    rw [hcov] at hnd
    rcases List.nodup_append.mp hnd with ⟨hnd1, hnd2, hdisj12⟩
    rcases List.nodup_append.mp hnd2 with ⟨hndq, hndl2, hdisjq2⟩
    rw [List.flatMap_append l1 l2 placementCells] at hcell
    rcases List.mem_append.mp hcell with h1 | h2
    · exact hdisj12 h1 (List.mem_append.mpr (Or.inl hin))
    · exact hdisjq2 hin h2
  have hget : ∀ cell : Cell, inBounds cell →
      boardGet (place_piece b q.2.1 q.2.2.1 q.2.2.2 (q.1 : Int)) cell.1 cell.2 =
      if cell ∈ shiftCells q.2.1 q.2.2.1 q.2.2.2 then (q.1 : Int)
      else boardGet b cell.1 cell.2 :=
    fun cell hc => boardGet_place hv hcan hlen cell hc
  refine ⟨?_, ?_, ?_, ?_, ?_⟩
  · intro r hr
    obtain ⟨ha, hb2, hc2⟩ := hext.hpieces r (hsub.mem hr)
    refine ⟨ha, hb2, ?_⟩
    rw [getD_set]
    rw [if_neg (fun hcon => hid_ne r hr hcon.1.symm)]
    exact hc2
  · exact hext.hids.sublist (hsub.map (fun x => x.1))
  · exact hext.hcells.sublist hcovsub
  · intro cell hcell
    obtain ⟨hcv, hcemp⟩ := hext.hok cell (hcovsub.mem hcell)
    refine ⟨hcv, ?_⟩
    rw [hget cell (hv.bounds cell hcv),
      if_neg (show cell ∉ shiftCells q.2.1 q.2.2.1 q.2.2.2 from hdisj_q cell hcell)]
    exact hcemp
  · intro cell hcv hcemp
    have hnotq : cell ∉ shiftCells q.2.1 q.2.2.1 q.2.2.2 := by
      intro hin
      rw [hget cell (hv.bounds cell hcv), if_pos hin] at hcemp
      omega
    have hold : boardGet b cell.1 cell.2 = -1 := by
      rw [hget cell (hv.bounds cell hcv), if_neg hnotq] at hcemp
      exact hcemp
    have hin_plan := hext.hall cell hcv hold
    rw [hcov] at hin_plan
    rw [List.flatMap_append l1 l2 placementCells]
    rcases List.mem_append.mp hin_plan with h1 | h2
    · exact List.mem_append.mpr (Or.inl h1)
    · rcases List.mem_append.mp h2 with h3 | h4
      · exact absurd h3 hnotq
      · exact List.mem_append.mpr (Or.inr h4)

theorem solve_complete {valid_cells : List Cell} (hv : ValidOk valid_cells) :
    ∀ (fuel : Nat) (b : Board) (used : List Bool) (plan : List Placement),
      b.length = 49 → ExtendsTo b used valid_cells plan → plan.length < fuel →
      (solve fuel b precompute_piece_orientations used valid_cells).1 = true := by
  intro fuel
  induction fuel with
  | zero =>
      intro b used plan _ _ hlt
      omega
  | succ fuel ih =>
      intro b used plan hlen hext hlt
      cases hfe : find_first_empty b valid_cells with
      | none => rw [solve_succ_none hfe]
      | some rc =>
          rw [solve_succ_some hfe]
          obtain ⟨hrcv, hrcemp⟩ := find_first_empty_some hfe
          have hrc_cov := hext.hall rc hrcv hrcemp
          rcases List.mem_flatMap.mp hrc_cov with ⟨q, hqplan, hqcell⟩
          have hqcell2 : rc ∈ q.2.1.map
              (fun d => (q.2.2.1 + d.1, q.2.2.2 + d.2)) := hqcell
          rcases List.mem_map.mp hqcell2 with ⟨d, hd, hde⟩
          have hde1 : q.2.2.1 + d.1 = rc.1 := congrArg Prod.fst hde
          have hde2 : q.2.2.2 + d.2 = rc.2 := congrArg Prod.snd hde
          have hsr : q.2.2.1 = rc.1 - d.1 := by omega
          have hsc : q.2.2.2 = rc.2 - d.2 := by omega
          obtain ⟨hqlt, hqor, hqunused⟩ := hext.hpieces q hqplan
          have hcan : can_place_piece b q.2.1 q.2.2.1 q.2.2.2 valid_cells = true := by
            apply (can_place_piece_spec b q.2.1 q.2.2.1 q.2.2.2 valid_cells).mpr
            intro d2 hd2
            apply hext.hok
            apply List.mem_flatMap.mpr
            refine ⟨q, hqplan, ?_⟩
            exact List.mem_map_of_mem (fun e => (q.2.2.1 + e.1, q.2.2.2 + e.2)) hd2
          obtain ⟨p1, p2, hsplit⟩ := List.append_of_mem hqplan
          subst hsplit
          by_contra hfalse
          have hfalse2 : (tryPieces
              (fun b2 u2 => solve fuel b2 precompute_piece_orientations u2 valid_cells)
              b used valid_cells rc.1 rc.2 precompute_piece_orientations.enum).1
              = false := by
            cases hres : (tryPieces
                (fun b2 u2 => solve fuel b2 precompute_piece_orientations u2 valid_cells)
                b used valid_cells rc.1 rc.2 precompute_piece_orientations.enum).1
            · rfl
            · exact absurd hres hfalse
          have hcan2 : can_place_piece b q.2.1 (rc.1 - d.1) (rc.2 - d.2)
              valid_cells = true := by
            rw [← hsr, ← hsc]
            exact hcan
          have hattempt : (solve fuel
              (place_piece b q.2.1 (rc.1 - d.1) (rc.2 - d.2) (q.1 : Int))
              precompute_piece_orientations (used.set q.1 true) valid_cells).1
              = false :=
            tryPieces_false
              (fun b2 u2 => solve_restore fuel b2 precompute_piece_orientations
                u2 valid_cells)
              b used valid_cells rc.1 rc.2 precompute_piece_orientations.enum hfalse2
              (q.1, precompute_piece_orientations.getD q.1 [])
              (mem_enum_of_lt precompute_piece_orientations q.1 [] hqlt)
              hqunused q.2.1 hqor d hd hcan2
          have hlen2 : (place_piece b q.2.1 q.2.2.1 q.2.2.2 (q.1 : Int)).length = 49 := by
            rw [place_piece_eq_writeCells, writeCells_length]
            exact hlen
          have hplace := ExtendsTo_place hv hlen hext hcan
          have hlt2 : (p1 ++ p2).length < fuel := by
            rw [List.length_append] at hlt ⊢
            rw [List.length_cons] at hlt
            omega
          have htrue := ih (place_piece b q.2.1 q.2.2.1 q.2.2.2 (q.1 : Int))
            (used.set q.1 true) (p1 ++ p2) hlen2 hplace hlt2
          have htrue2 : (solve fuel
              (place_piece b q.2.1 (rc.1 - d.1) (rc.2 - d.2) (q.1 : Int))
              precompute_piece_orientations (used.set q.1 true) valid_cells).1
              = true := by
            rw [← hsr, ← hsc]
            exact htrue
          rw [htrue2] at hattempt
          cases hattempt

set_option maxRecDepth 200000 in
theorem extends_plan11 :
    ExtendsTo (initial_board (valid_for ((0 : Int), (0 : Int)) ((2 : Int), (0 : Int))))
      (List.replicate PIECES.length false)
      (valid_for ((0 : Int), (0 : Int)) ((2 : Int), (0 : Int))) plan11 := by
  refine ⟨?_, ?_, ?_, ?_, ?_⟩ <;> decide

theorem solve_core_isSome_of_true (mp dp : Cell)
    (h : (solve 9 (initial_board (valid_for mp dp)) precompute_piece_orientations
      (List.replicate PIECES.length false) (valid_for mp dp)).1 = true) :
    ∃ b, solve_core mp dp = some b := by
  simp only [solve_core]
  rcases hres : solve 9 (initial_board (valid_for mp dp)) precompute_piece_orientations
      (List.replicate PIECES.length false) (valid_for mp dp) with ⟨flag, b2, u2⟩
  rw [hres] at h
  simp only at h
  subst h
  exact ⟨b2, rfl⟩

theorem solve_core_jan1_some :
    ∃ b, solve_core ((0 : Int), (0 : Int)) ((2 : Int), (0 : Int)) = some b :=
  solve_core_isSome_of_true _ _
    (solve_complete (validOk_valid_for _ _) 9 _ _ plan11
      (Inv_initial _ _).hlen extends_plan11 (by decide))

set_option maxRecDepth 10000 in
theorem solve_puzzle_1_1_some : ∃ b, solve_puzzle 1 1 = some b := by
  obtain ⟨b, hb⟩ := solve_core_jan1_some
  refine ⟨b, ?_⟩
  have h1 : month_pos 1 = some ((0 : Int), (0 : Int)) := by decide
  have h2 : day_pos 1 = some ((2 : Int), (0 : Int)) := by decide
  simp only [solve_puzzle, h1, h2]
  exact hb

/-- Shared consequences of a successful query: 41 covered cells, every
cell carrying a piece id 0..7, every piece covering its own size, and the
two targets left at -2. -/
theorem solve_core_props {mp dp : Cell} {b : Board}
    (hm : mp ∈ MONTHS.map Prod.fst) (hd : dp ∈ DAYS.map Prod.fst)
    (hsp : solve_core mp dp = some b) :
    (valid_for mp dp).length = 41 ∧
    (∀ cell ∈ valid_for mp dp,
      0 ≤ boardGet b cell.1 cell.2 ∧ boardGet b cell.1 cell.2 < 8) ∧
    (∀ pid : Nat, pid < 8 →
      countPid b (valid_for mp dp) pid = (PIECES.getD pid []).length) ∧
    boardGet b mp.1 mp.2 = -2 ∧ boardGet b dp.1 dp.2 = -2 := by
  have hv := validOk_valid_for mp dp
  obtain ⟨u, hsolve⟩ := solve_core_some hsp
  obtain ⟨invf, hnone⟩ := solve_sound hv 9 _ _ (b, u) (Inv_initial mp dp) hsolve
  have hmv := month_positions_valid mp hm
  have hdv := day_positions_valid dp hd
  have hlen41 := valid_for_length hmv hdv (month_day_positions_ne mp hm dp hd)
  have hused := all_used_of_success hv invf hnone hlen41
  refine ⟨hlen41, ?_, ?_, ?_, ?_⟩
  · intro cell hc
    rcases invf.hval cell hc with h | ⟨pid, h1, _, h3⟩
    · exact absurd h ((find_first_empty_none_iff hv).mp hnone cell hc)
    · constructor
      · rw [h3]
        omega
      · rw [h3]
        omega
  · intro pid hpid
    have hcnt := invf.hcount pid hpid
    rw [hused pid hpid, if_pos rfl] at hcnt
    exact hcnt
  · exact invf.hoff mp (get_all_valid_cells_bounds mp hmv) (month_pos_not_mem_valid_for mp dp)
  · exact invf.hoff dp (get_all_valid_cells_bounds dp hdv) (day_pos_not_mem_valid_for mp dp)

/-! ### Frame property of the search's mutation steps -/

/-- Cells outside the valid set are untouched by any chain of feasible
placements and guarded removals. -/
theorem SolveReach_frame {valid_cells : List Cell} (hv : ValidOk valid_cells)
    {b b2 : Board} (h : SolveReach valid_cells b b2) (hlen : b.length = 49)
    (cell : Cell) (hcell : inBounds cell) (hnot : cell ∉ valid_cells) :
    b2.length = 49 ∧ boardGet b2 cell.1 cell.2 = boardGet b cell.1 cell.2 := by
  induction h with
  | refl => exact ⟨hlen, rfl⟩
  | place piece sr sc pid hreach hcan ih =>
      obtain ⟨hlen2, hval⟩ := ih
      refine ⟨?_, ?_⟩
      · rw [place_piece_eq_writeCells, writeCells_length]
        exact hlen2
      · rw [boardGet_place hv hcan hlen2 cell hcell,
          if_neg (fun hmem => hnot (shiftCells_subset hcan cell hmem))]
        exact hval
  | remove piece sr sc hreach hguard ih =>
      obtain ⟨hlen2, hval⟩ := ih
      have hsub : ∀ x ∈ shiftCells piece sr sc, x ∈ valid_cells := by
        intro x hx
        rcases List.mem_map.mp hx with ⟨d, hd, he⟩
        rw [← he]
        exact hguard d hd
      refine ⟨?_, ?_⟩
      · rw [remove_piece_eq_writeCells, writeCells_length]
        exact hlen2
      · rw [remove_piece_eq_writeCells,
          boardGet_writeCells_inBounds (-1) (shiftCells piece sr sc) _ cell
            (fun x hx => hv.bounds x (hsub x hx)) hcell hlen2,
          if_neg (fun hmem => hnot (hsub cell hmem))]
        exact hval

/-! ### Date-lookup evaluations used by the witnesses -/

set_option maxRecDepth 10000 in
theorem month_pos_1 : month_pos 1 = some ((0 : Int), (0 : Int)) := by decide

set_option maxRecDepth 10000 in
theorem day_pos_1 : day_pos 1 = some ((2 : Int), (0 : Int)) := by decide

set_option maxRecDepth 10000 in
theorem month_pos_isSome_of_range :
    ∀ month : Nat, 1 ≤ month → month ≤ 12 → (month_pos month).isSome = true := by
  intro month h1 h2
  interval_cases month <;> decide

set_option maxRecDepth 10000 in
theorem day_pos_isSome_of_range :
    ∀ d : Nat, 1 ≤ d → d ≤ 31 → (day_pos d).isSome = true := by
  intro d h1 h2
  interval_cases d <;> decide

/-! ### The ten claims -/

/-- C1: whenever `solve_puzzle` returns a board, then on the query's 41
playable cells (all non-blocked cells except the two targets) every cell
carries one piece id in 0..7, piece 0 covers exactly its 6 cells and each
of pieces 1..7 covers exactly its 5 cells; a cell holds a single id, so no
cell is claimed by two pieces. -/
theorem C1_solution_coverage (month day : Nat) (b : Board)
    (hb : solve_puzzle month day = some b) :
    ∃ mp dp, month_pos month = some mp ∧ day_pos day = some dp ∧
      (valid_for mp dp).length = 41 ∧
      (∀ cell ∈ valid_for mp dp,
        0 ≤ boardGet b cell.1 cell.2 ∧ boardGet b cell.1 cell.2 < 8) ∧
      countPid b (valid_for mp dp) 0 = 6 ∧
      (∀ pid : Nat, 1 ≤ pid → pid < 8 → countPid b (valid_for mp dp) pid = 5) := by
  cases hmp : month_pos month with
  | none =>
      cases hdp : day_pos day with
      | none =>
          simp only [solve_puzzle, hmp, hdp] at hb
          exact Option.noConfusion hb
      | some dp =>
          simp only [solve_puzzle, hmp, hdp] at hb
          exact Option.noConfusion hb
  | some mp =>
      cases hdp : day_pos day with
      | none =>
          simp only [solve_puzzle, hmp, hdp] at hb
          exact Option.noConfusion hb
      | some dp =>
          simp only [solve_puzzle, hmp, hdp] at hb
          have hm := month_pos_mem hmp
          have hd := day_pos_mem hdp
          obtain ⟨h41, hval, hcnt, _, _⟩ := solve_core_props hm hd hb
          refine ⟨mp, dp, rfl, rfl, h41, hval, ?_, ?_⟩
          · rw [hcnt 0 (by omega)]
            decide
          · intro pid h1p h2p
            have hc := hcnt pid h2p
            interval_cases pid <;> rw [hc] <;> decide

theorem C1_witness :
    solve_puzzle 1 1 = some ((solve_puzzle 1 1).getD []) ∧
    (∃ mp dp, month_pos 1 = some mp ∧ day_pos 1 = some dp ∧
      (valid_for mp dp).length = 41 ∧
      (∀ cell ∈ valid_for mp dp,
        0 ≤ boardGet ((solve_puzzle 1 1).getD []) cell.1 cell.2 ∧
        boardGet ((solve_puzzle 1 1).getD []) cell.1 cell.2 < 8) ∧
      countPid ((solve_puzzle 1 1).getD []) (valid_for mp dp) 0 = 6 ∧
      (∀ pid : Nat, 1 ≤ pid → pid < 8 →
        countPid ((solve_puzzle 1 1).getD []) (valid_for mp dp) pid = 5)) := by
  obtain ⟨b, hb⟩ := solve_puzzle_1_1_some
  have hb2 : solve_puzzle 1 1 = some ((solve_puzzle 1 1).getD []) := by
    rw [hb]
    exact rfl
  exact ⟨hb2, C1_solution_coverage 1 1 ((solve_puzzle 1 1).getD []) hb2⟩

/-- C2: for any query the two target cells are never given a piece id: every
board reachable from the query's initial board by the search's mutation
steps (feasible placements and removals of previously placed pieces) keeps
both targets at -2, and any board returned by `solve_puzzle` has both
targets at -2. -/
theorem C2_targets_excluded (month day : Nat) (mp dp : Cell)
    (hmp : month_pos month = some mp) (hdp : day_pos day = some dp) :
    (∀ b, SolveReach (valid_for mp dp) (initial_board (valid_for mp dp)) b →
      boardGet b mp.1 mp.2 = -2 ∧ boardGet b dp.1 dp.2 = -2) ∧
    (∀ b, solve_puzzle month day = some b →
      boardGet b mp.1 mp.2 = -2 ∧ boardGet b dp.1 dp.2 = -2) := by
  have hv := validOk_valid_for mp dp
  have hm := month_pos_mem hmp
  have hd := day_pos_mem hdp
  have hmb : inBounds mp := get_all_valid_cells_bounds mp (month_positions_valid mp hm)
  have hdb : inBounds dp := get_all_valid_cells_bounds dp (day_positions_valid dp hd)
  have hinit := Inv_initial mp dp
  constructor
  · intro b hreach
    obtain ⟨_, hfm⟩ := SolveReach_frame hv hreach hinit.hlen mp hmb
      (month_pos_not_mem_valid_for mp dp)
    obtain ⟨_, hfd⟩ := SolveReach_frame hv hreach hinit.hlen dp hdb
      (day_pos_not_mem_valid_for mp dp)
    rw [hfm, hfd]
    exact ⟨hinit.hoff mp hmb (month_pos_not_mem_valid_for mp dp),
      hinit.hoff dp hdb (day_pos_not_mem_valid_for mp dp)⟩
  · intro b hb
    simp only [solve_puzzle, hmp, hdp] at hb
    obtain ⟨_, _, _, h1, h2⟩ := solve_core_props hm hd hb
    exact ⟨h1, h2⟩

theorem C2_witness :
    (month_pos 1 = some ((0 : Int), (0 : Int)) ∧
     day_pos 1 = some ((2 : Int), (0 : Int))) ∧
    ((∀ b, SolveReach (valid_for ((0 : Int), (0 : Int)) ((2 : Int), (0 : Int)))
        (initial_board (valid_for ((0 : Int), (0 : Int)) ((2 : Int), (0 : Int)))) b →
      boardGet b 0 0 = -2 ∧ boardGet b 2 0 = -2) ∧
     (∀ b, solve_puzzle 1 1 = some b →
      boardGet b 0 0 = -2 ∧ boardGet b 2 0 = -2)) :=
  ⟨⟨month_pos_1, day_pos_1⟩,
   C2_targets_excluded 1 1 ((0 : Int), (0 : Int)) ((2 : Int), (0 : Int))
     month_pos_1 day_pos_1⟩

/-- C3: whenever `solve` returns with failure flag `false`, the board and
the used-pieces flags it hands back are exactly the ones it was called
with: every placement committed inside the call has been undone. -/
theorem C3_failure_restores (fuel : Nat) (b : Board) (po : List (List Shape))
    (used : List Bool) (vc : List Cell)
    (h : (solve fuel b po used vc).1 = false) :
    (solve fuel b po used vc).2.1 = b ∧ (solve fuel b po used vc).2.2 = used := by
  have hr := solve_restore fuel b po used vc h
  exact ⟨congrArg Prod.fst hr, congrArg Prod.snd hr⟩

theorem C3_witness :
    (solve 1 (initial_board [((0 : Int), (0 : Int))])
       [[[((0 : Int), (0 : Int)), ((0 : Int), (1 : Int))]]] [false]
       [((0 : Int), (0 : Int))]).1 = false ∧
    ((solve 1 (initial_board [((0 : Int), (0 : Int))])
       [[[((0 : Int), (0 : Int)), ((0 : Int), (1 : Int))]]] [false]
       [((0 : Int), (0 : Int))]).2.1 = initial_board [((0 : Int), (0 : Int))] ∧
     (solve 1 (initial_board [((0 : Int), (0 : Int))])
       [[[((0 : Int), (0 : Int)), ((0 : Int), (1 : Int))]]] [false]
       [((0 : Int), (0 : Int))]).2.2 = [false]) :=
  ⟨by decide,
   C3_failure_restores 1 (initial_board [((0 : Int), (0 : Int))])
     [[[((0 : Int), (0 : Int)), ((0 : Int), (1 : Int))]]] [false]
     [((0 : Int), (0 : Int))] (by decide)⟩

set_option maxRecDepth 10000 in
/-- C4: every orientation produced for one of the 8 pieces is normalized
(minimum row and minimum column are 0) and has exactly as many offset
cells as the input shape. -/
theorem C4_orientations_normalized :
    ∀ piece ∈ PIECES, ∀ o ∈ get_all_orientations piece,
      listMin (o.map Prod.fst) = 0 ∧ listMin (o.map Prod.snd) = 0 ∧
      o.length = piece.length := by decide

set_option maxRecDepth 10000 in
theorem C4_witness :
    (([(0, 0), (0, 1), (1, 0), (1, 1), (2, 0), (2, 1)] : Shape) ∈ PIECES ∧
     ([(0, 0), (0, 1), (1, 0), (1, 1), (2, 0), (2, 1)] : Shape) ∈
       get_all_orientations ([(0, 0), (0, 1), (1, 0), (1, 1), (2, 0), (2, 1)] : Shape)) ∧
    (listMin (([(0, 0), (0, 1), (1, 0), (1, 1), (2, 0), (2, 1)] : Shape).map Prod.fst) = 0 ∧
     listMin (([(0, 0), (0, 1), (1, 0), (1, 1), (2, 0), (2, 1)] : Shape).map Prod.snd) = 0 ∧
     ([(0, 0), (0, 1), (1, 0), (1, 1), (2, 0), (2, 1)] : Shape).length =
       ([(0, 0), (0, 1), (1, 0), (1, 1), (2, 0), (2, 1)] : Shape).length) :=
  ⟨⟨by decide, by decide⟩,
   C4_orientations_normalized ([(0, 0), (0, 1), (1, 0), (1, 1), (2, 0), (2, 1)] : Shape)
     (by decide) ([(0, 0), (0, 1), (1, 0), (1, 1), (2, 0), (2, 1)] : Shape) (by decide)⟩

/-- C5: for every shape the orientation set has between 1 and 8 pairwise
distinct members, and the symmetric piece 0 (the 2x3 rectangle) has
strictly fewer than 8 orientations. -/
theorem C5_orientation_count (piece : Shape) :
    (1 ≤ (get_all_orientations piece).length ∧
     (get_all_orientations piece).length ≤ 8 ∧
     (get_all_orientations piece).Nodup) ∧
    (get_all_orientations (PIECES.getD 0 [])).length < 8 :=
  ⟨⟨get_all_orientations_nonempty piece, get_all_orientations_le_eight piece,
    get_all_orientations_nodup piece⟩, by decide⟩

/-- C6: on a non-empty shape whose minimum row and minimum column are 0,
four successive applications of `rotate_piece` give back the original
shape. -/
theorem C6_rotate_four_identity (s : Shape) (hne : s ≠ [])
    (hr : listMin (s.map Prod.fst) = 0) (hc : listMin (s.map Prod.snd) = 0) :
    rotate_piece (rotate_piece (rotate_piece (rotate_piece s))) = s :=
  rotate_four_eq s hne hr hc

theorem C6_witness :
    (([(0, 0), (1, 0), (2, 0), (3, 0), (3, 1)] : Shape) ≠ [] ∧
     listMin (([(0, 0), (1, 0), (2, 0), (3, 0), (3, 1)] : Shape).map Prod.fst) = 0 ∧
     listMin (([(0, 0), (1, 0), (2, 0), (3, 0), (3, 1)] : Shape).map Prod.snd) = 0) ∧
    rotate_piece (rotate_piece (rotate_piece (rotate_piece
      ([(0, 0), (1, 0), (2, 0), (3, 0), (3, 1)] : Shape)))) =
      ([(0, 0), (1, 0), (2, 0), (3, 0), (3, 1)] : Shape) :=
  ⟨⟨by decide, by decide, by decide⟩,
   C6_rotate_four_identity ([(0, 0), (1, 0), (2, 0), (3, 0), (3, 1)] : Shape)
     (by decide) (by decide) (by decide)⟩

set_option maxRecDepth 10000 in
/-- C7: the January-1 query succeeds: `solve_puzzle 1 1` returns a board
covering the 41 playable cells outside the two targets (0,0) and (2,0)
with all 8 pieces, each used exactly once and covering its own cell
count. -/
theorem C7_jan1_solvable :
    ∃ b, solve_puzzle 1 1 = some b ∧
      (valid_for ((0 : Int), (0 : Int)) ((2 : Int), (0 : Int))).length = 41 ∧
      (∀ cell ∈ valid_for ((0 : Int), (0 : Int)) ((2 : Int), (0 : Int)),
        0 ≤ boardGet b cell.1 cell.2 ∧ boardGet b cell.1 cell.2 < 8) ∧
      (∀ pid : Nat, pid < 8 →
        countPid b (valid_for ((0 : Int), (0 : Int)) ((2 : Int), (0 : Int))) pid
          = (PIECES.getD pid []).length) := by
  obtain ⟨b, hb⟩ := solve_puzzle_1_1_some
  have hcore : solve_core ((0 : Int), (0 : Int)) ((2 : Int), (0 : Int)) = some b := by
    simp only [solve_puzzle, month_pos_1, day_pos_1] at hb
    exact hb
  obtain ⟨h41, hval, hcnt, _, _⟩ := solve_core_props (by decide) (by decide) hcore
  exact ⟨b, hb, h41, hval, hcnt⟩

/-- C8: the search's recursion depth is bounded by the number of pieces:
with the 8 used-piece flags of the real queries, any fuel of at least 9
gives exactly the same result as fuel 9, so the recursion never runs
deeper than one level per piece plus the final empty-cell check. -/
theorem C8_depth_bound (fuel : Nat) (b : Board) (po : List (List Shape))
    (used : List Bool) (vc : List Cell) (hu : used.length = 8) (hf : 9 ≤ fuel) :
    solve fuel b po used vc = solve 9 b po used vc := by
  have hc : used.count false ≤ used.length := List.count_le_length false used
  exact solve_fuel_congr fuel 9 b po used vc (by omega) (by omega)

theorem C8_witness :
    ((List.replicate 8 false).length = 8 ∧ 9 ≤ 10) ∧
    solve 10 (initial_board []) [] (List.replicate 8 false) []
      = solve 9 (initial_board []) [] (List.replicate 8 false) [] :=
  ⟨⟨by decide, by decide⟩,
   C8_depth_bound 10 (initial_board []) [] (List.replicate 8 false) []
     (by decide) (by decide)⟩

/-- C9: for every month 1..12 and day 1..31, including impossible calendar
combinations, all dictionary/list lookups succeed, so the exception-aware
model returns `Except.ok` of exactly what `solve_puzzle` returns; absence
of a solution surfaces only as the inner `none`. -/
theorem C9_no_exception (month day : Nat) (hm1 : 1 ≤ month) (hm2 : month ≤ 12)
    (hd1 : 1 ≤ day) (hd2 : day ≤ 31) :
    solve_puzzleE month day = Except.ok (solve_puzzle month day) := by
  have hms := month_pos_isSome_of_range month hm1 hm2
  have hds := day_pos_isSome_of_range day hd1 hd2
  obtain ⟨mp, hmp⟩ := Option.isSome_iff_exists.mp hms
  obtain ⟨dp, hdp⟩ := Option.isSome_iff_exists.mp hds
  have hdk : DAY_TO_POS.lookup day = some dp := hdp
  have hmp2 := hmp
  unfold month_pos at hmp2
  cases hg : pyGet MONTH_NAMES ((month : Int) - 1) with
  | none =>
      rw [hg] at hmp2
      exact Option.noConfusion hmp2
  | some name =>
      rw [hg] at hmp2
      have hlk : MONTH_TO_POS.lookup name = some mp := hmp2
      simp only [solve_puzzleE, hg, hlk, hdk, solve_puzzle, hmp, hdp]

theorem C9_witness :
    (1 ≤ 2 ∧ 2 ≤ 12 ∧ 1 ≤ 31 ∧ 31 ≤ 31) ∧
    solve_puzzleE 2 31 = Except.ok (solve_puzzle 2 31) :=
  ⟨⟨by decide, by decide, by decide, by decide⟩,
   C9_no_exception 2 31 (by decide) (by decide) (by decide) (by decide)⟩

/-- C10: the feasibility check reads the board only at coordinates that
passed the valid-cell membership test, so its verdict depends only on the
board's values on the query's valid cells; and every coordinate of an
accepted placement lies in the valid set, hence in 0..6 on both axes, so
the index arithmetic never wraps around (r % 7 = r and c % 7 = c: the
negative-index behaviour of the array never affects a check or a
placement). -/
theorem C10_guarded_access (b1 b2 : Board) (piece : Shape) (sr sc : Int) (mp dp : Cell)
    (hag : ∀ r c : Int, ((r, c) : Cell) ∈ valid_for mp dp →
      boardGet b1 r c = boardGet b2 r c) :
    can_place_piece b1 piece sr sc (valid_for mp dp)
      = can_place_piece b2 piece sr sc (valid_for mp dp) ∧
    (can_place_piece b1 piece sr sc (valid_for mp dp) = true →
      ∀ d ∈ piece, (sr + d.1, sc + d.2) ∈ valid_for mp dp ∧
        0 ≤ sr + d.1 ∧ sr + d.1 < 7 ∧ 0 ≤ sc + d.2 ∧ sc + d.2 < 7 ∧
        (sr + d.1) % 7 = sr + d.1 ∧ (sc + d.2) % 7 = sc + d.2) := by
  have hiff : can_place_piece b1 piece sr sc (valid_for mp dp) = true ↔
      can_place_piece b2 piece sr sc (valid_for mp dp) = true := by
    rw [can_place_piece_spec, can_place_piece_spec]
    constructor
    · intro h d hd
      obtain ⟨hm, he⟩ := h d hd
      refine ⟨hm, ?_⟩
      rw [← hag (sr + d.1) (sc + d.2) hm]
      exact he
    · intro h d hd
      obtain ⟨hm, he⟩ := h d hd
      refine ⟨hm, ?_⟩
      rw [hag (sr + d.1) (sc + d.2) hm]
      exact he
  constructor
  · cases h1 : can_place_piece b1 piece sr sc (valid_for mp dp) with
    | false =>
        cases h2 : can_place_piece b2 piece sr sc (valid_for mp dp) with
        | false => rfl
        | true =>
            rw [hiff.mpr h2] at h1
            exact Bool.noConfusion h1
    | true => exact (hiff.mp h1).symm
  · intro hcp d hd
    obtain ⟨hm, _⟩ := (can_place_piece_spec b1 piece sr sc (valid_for mp dp)).mp hcp d hd
    have hg := mem_valid_for.mp hm
    have hbnd : inBounds (sr + d.1, sc + d.2) := get_all_valid_cells_bounds _ hg.1
    have hbnd2 : 0 ≤ sr + d.1 ∧ sr + d.1 < 7 ∧ 0 ≤ sc + d.2 ∧ sc + d.2 < 7 := hbnd
    obtain ⟨h1, h2, h3, h4⟩ := hbnd2
    refine ⟨hm, h1, h2, h3, h4, ?_, ?_⟩ <;> omega

theorem C10_witness :
    (∀ r c : Int, ((r, c) : Cell) ∈ valid_for ((0 : Int), (0 : Int)) ((2 : Int), (0 : Int)) →
      boardGet [] r c = boardGet [] r c) ∧
    (can_place_piece [] [((0 : Int), (1 : Int))] 2 2
        (valid_for ((0 : Int), (0 : Int)) ((2 : Int), (0 : Int)))
      = can_place_piece [] [((0 : Int), (1 : Int))] 2 2
        (valid_for ((0 : Int), (0 : Int)) ((2 : Int), (0 : Int))) ∧
     (can_place_piece [] [((0 : Int), (1 : Int))] 2 2
        (valid_for ((0 : Int), (0 : Int)) ((2 : Int), (0 : Int))) = true →
      ∀ d ∈ [((0 : Int), (1 : Int))],
        ((2 : Int) + d.1, (2 : Int) + d.2) ∈
          valid_for ((0 : Int), (0 : Int)) ((2 : Int), (0 : Int)) ∧
        0 ≤ (2 : Int) + d.1 ∧ (2 : Int) + d.1 < 7 ∧
        0 ≤ (2 : Int) + d.2 ∧ (2 : Int) + d.2 < 7 ∧
        ((2 : Int) + d.1) % 7 = (2 : Int) + d.1 ∧
        ((2 : Int) + d.2) % 7 = (2 : Int) + d.2)) :=
  ⟨fun _ _ _ => rfl,
   C10_guarded_access [] [] [((0 : Int), (1 : Int))] 2 2
     ((0 : Int), (0 : Int)) ((2 : Int), (0 : Int)) (fun _ _ _ => rfl)⟩

end PuzzleSolver
